import Mathlib

/-!
# The `stat` package: atomic counters, the dynamic counter map and the metrics registry

A shallow embedding of `stat/atomic.go` and `stat/stat.go`, followed by the single point
engine of `engine/singlepoint_engine.go` and the conversion of Mackerel metrics of
`api/mackerel/api.go`.

* Go `int64` values are integers kept in the range `[-2^63, 2^63)`; arithmetic that the
  hardware performs modulo `2^64` is written with `wrapInt64`.
* Go `float64` values are Lean `Float` values (both are IEEE 754 binary64).
* A Go `map[string]T` is a list of entries read by first match (`GoMap`).
* A Go `interface{}` value is a `Value`.
* A `sync.RWMutex` is a record of who holds it. Methods are run one call at a time, so a
  `Lock` on a mutex that is still held can never be granted: the call waits forever
  (`Outcome.block`).
* A method returns an `Outcome`: a normal return, a panic (with the state it leaves
  behind), or a call that never gets its lock.
-/

namespace Stat

/-! ## Machine integers -/

/-- The value of the two's complement 64-bit integer congruent to `n`. -/
def wrapInt64 (n : Int) : Int :=
  (n + 9223372036854775808) % 18446744073709551616 - 9223372036854775808

/-- Membership in the range of Go's `int64`. -/
def IsInt64 (n : Int) : Prop :=
  -9223372036854775808 ≤ n ∧ n < 9223372036854775808

instance (n : Int) : Decidable (IsInt64 n) := by
  unfold IsInt64; infer_instance

/-! ## Leaf counters -/

/-- `type AtomicInt struct { v int64 }`. -/
structure AtomicInt where
  v : Int
  deriving DecidableEq, Repr

/-- `atomic.AddInt64(&s.v, val)`: 64-bit addition, wrapping on overflow. -/
def AtomicInt.Add (s : AtomicInt) (val : Int) : AtomicInt :=
  { v := wrapInt64 (s.v + val) }

/-- `atomic.AddInt64(&s.v, 1)`. -/
def AtomicInt.Increment (s : AtomicInt) : AtomicInt :=
  { v := wrapInt64 (s.v + 1) }

/-- `atomic.AddInt64(&s.v, -1)`. -/
def AtomicInt.Decrement (s : AtomicInt) : AtomicInt :=
  { v := wrapInt64 (s.v + (-1)) }

/-- `atomic.LoadInt64(&s.v)`. -/
def AtomicInt.Get (s : AtomicInt) : Int :=
  s.v

/-- `atomic.StoreInt64(&s.v, val)`. -/
def AtomicInt.Set (_s : AtomicInt) (val : Int) : AtomicInt :=
  { v := val }

/-- `type AtomicFloat struct { v float64; mu sync.RWMutex }`. Every method takes `mu`
and gives it back before returning, and none can fail in between, so `mu` is free
between calls and is left out of the state. -/
structure AtomicFloat where
  v : Float

/-- `s.v += val` under the lock. -/
def AtomicFloat.Add (s : AtomicFloat) (val : Float) : AtomicFloat :=
  { v := s.v + val }

/-- `v := s.v` under the lock. -/
def AtomicFloat.Get (s : AtomicFloat) : Float :=
  s.v

/-- `s.v = val` under the lock. -/
def AtomicFloat.Set (_s : AtomicFloat) (val : Float) : AtomicFloat :=
  { v := val }

/-- `type AtomicString struct { v string; mu sync.RWMutex }`; `mu` as for `AtomicFloat`. -/
structure AtomicString where
  v : String
  deriving DecidableEq, Repr

/-- `s.v = val` under the lock. -/
def AtomicString.Set (_s : AtomicString) (val : String) : AtomicString :=
  { v := val }

/-- `result := s.v` under the read lock. -/
def AtomicString.Get (s : AtomicString) : String :=
  s.v

/-! ## Dynamic values, maps, locks and outcomes -/

/-- A Go `interface{}` value, as far as this package stores or returns one. -/
inductive Value where
  | nil
  | int (n : Int)
  | int64 (n : Int)
  | float64 (f : Float)
  | string (s : String)
  | atomicInt (c : AtomicInt)
  | atomicFloat (c : AtomicFloat)

/-- A Go `map[string]T`: entries in insertion order, a key is read at its first entry. -/
abbrev GoMap (α : Type) := List (String × α)

/-- `v, ok := m[key]`: `some v` when `ok`, `none` otherwise. -/
def GoMap.get? {α : Type} : GoMap α → String → Option α
  | [], _ => none
  | (k, a) :: rest, key => if k = key then some a else GoMap.get? rest key

/-- `m[key] = a`: overwrite the entry of `key`, or add one. -/
def GoMap.set {α : Type} : GoMap α → String → α → GoMap α
  | [], key, a => [(key, a)]
  | (k, b) :: rest, key, a =>
    if k = key then (k, a) :: rest else (k, b) :: GoMap.set rest key a

/-- The keys of a map, one per entry. -/
def GoMap.keys {α : Type} (m : GoMap α) : List String :=
  m.map Prod.fst

/-- A `sync.RWMutex`: `w` says a writer holds it, `r` counts the readers holding it. -/
structure RWMutex where
  w : Bool
  r : Nat
  deriving DecidableEq, Repr

/-- The zero value of `sync.RWMutex`: held by nobody. -/
def RWMutex.zero : RWMutex := { w := false, r := 0 }

/-- `mu.Lock()`: granted (`some`) only when nobody holds the mutex. -/
def RWMutex.Lock (m : RWMutex) : Option RWMutex :=
  if m.w = false ∧ m.r = 0 then some { w := true, r := 0 } else none

/-- `mu.Unlock()`. -/
def RWMutex.Unlock (m : RWMutex) : RWMutex :=
  { w := false, r := m.r }

/-- `mu.RLock()`: granted (`some`) only when no writer holds the mutex. -/
def RWMutex.RLock (m : RWMutex) : Option RWMutex :=
  if m.w = false then some { w := false, r := m.r + 1 } else none

/-- `mu.RUnlock()`. -/
def RWMutex.RUnlock (m : RWMutex) : RWMutex :=
  { w := m.w, r := m.r - 1 }

/-- What a method call does: return `val` leaving state `s`, panic with `msg` leaving
state `s`, or wait forever for a lock, the state `s` untouched. -/
inductive Outcome (σ : Type) (α : Type) where
  | ret (val : α) (s : σ)
  | panic (msg : String) (s : σ)
  | block (s : σ)

/-- The state a call leaves behind. -/
def Outcome.state {σ α : Type} : Outcome σ α → σ
  | .ret _ s => s
  | .panic _ s => s
  | .block s => s

/-- The call returned normally. -/
def Outcome.isRet {σ α : Type} : Outcome σ α → Bool
  | .ret _ _ => true
  | _ => false

/-- The call panicked. -/
def Outcome.isPanic {σ α : Type} : Outcome σ α → Bool
  | .panic _ _ => true
  | _ => false

/-- The call never got its lock. -/
def Outcome.isBlock {σ α : Type} : Outcome σ α → Bool
  | .block _ => true
  | _ => false

/-! ## AtomicMap -/

/-- `type AtomicMap struct { v map[string]interface{}; mu sync.RWMutex }`. -/
structure AtomicMap where
  v : GoMap Value
  mu : RWMutex

/-- `NewAtomicMap()`: an empty map, the mutex free. -/
def NewAtomicMap : AtomicMap :=
  { v := [], mu := RWMutex.zero }

/-- `AtomicMap.Get`: the stored value of `key`, or the nil interface. -/
def AtomicMap.Get (s : AtomicMap) (key : String) : Outcome AtomicMap Value :=
  match s.mu.RLock with
  | none => .block s
  | some mu1 =>
    let result : Value :=
      match s.v.get? key with
      | some v => v
      | none => Value.nil
    .ret result { v := s.v, mu := mu1.RUnlock }

/-- `AtomicMap.Add`: bind `key` to a fresh `AtomicInt` when it is absent, then add `value`
to the `*AtomicInt` stored for `key`, or panic when the stored value is of another type.
The panic leaves before `s.mu.Unlock()`. -/
def AtomicMap.Add (s : AtomicMap) (key : String) (value : Int) : Outcome AtomicMap Unit :=
  match s.mu.Lock with
  | none => .block s
  | some mu1 =>
    let v1 : GoMap Value :=
      match s.v.get? key with
      | none => s.v.set key (Value.atomicInt { v := 0 })
      | some _ => s.v
    match v1.get? key with
    | some (Value.atomicInt m) =>
      .ret () { v := v1.set key (Value.atomicInt (m.Add value)), mu := mu1.Unlock }
    | _ => .panic ("atomic_map: umatched type for " ++ key) { v := v1, mu := mu1 }

/-- `AtomicMap.AddFloat`: as `Add`, for `*AtomicFloat`. -/
def AtomicMap.AddFloat (s : AtomicMap) (key : String) (value : Float) :
    Outcome AtomicMap Unit :=
  match s.mu.Lock with
  | none => .block s
  | some mu1 =>
    let v1 : GoMap Value :=
      match s.v.get? key with
      | none => s.v.set key (Value.atomicFloat { v := 0 })
      | some _ => s.v
    match v1.get? key with
    | some (Value.atomicFloat m) =>
      .ret () { v := v1.set key (Value.atomicFloat (m.Add value)), mu := mu1.Unlock }
    | _ => .panic ("atomic_map: umatched type for " ++ key) { v := v1, mu := mu1 }

/-- The loop of `MarshalJSON`: copy every entry into `result` unwrapped, or stop at the
first value that is neither `*AtomicInt` nor `*AtomicFloat` (`none`: the loop panics). -/
def marshalLoop : GoMap Value → GoMap Value → Option (GoMap Value)
  | [], result => some result
  | (key, Value.atomicInt c) :: rest, result =>
    marshalLoop rest (result.set key (Value.int64 c.Get))
  | (key, Value.atomicFloat c) :: rest, result =>
    marshalLoop rest (result.set key (Value.float64 c.Get))
  | _ :: _, _ => none

/-- `AtomicMap.MarshalJSON`, up to the call of `json.Marshal`: the value returned is the
map `result` handed to the encoder. A panic leaves before `s.mu.RUnlock()`. -/
def AtomicMap.MarshalJSON (s : AtomicMap) : Outcome AtomicMap (GoMap Value) :=
  match s.mu.RLock with
  | none => .block s
  | some mu1 =>
    match marshalLoop s.v [] with
    | some result => .ret result { v := s.v, mu := mu1.RUnlock }
    | none => .panic "unsupported type" { v := s.v, mu := mu1 }

/-- The kind a key of an `AtomicMap` is bound to. -/
inductive Kind where
  | integer
  | float
  deriving DecidableEq, Repr

/-- The kind of counter a stored value is: `*AtomicInt`, `*AtomicFloat`, or neither. -/
def Value.kind? : Value → Option Kind
  | .atomicInt _ => some Kind.integer
  | .atomicFloat _ => some Kind.float
  | _ => none

/-- The kind `key` is bound to, if it is bound to a counter. -/
def AtomicMap.kindOf (s : AtomicMap) (key : String) : Option Kind :=
  (s.v.get? key).bind Value.kind?

/-- Whether `key` has an entry in the map. -/
def AtomicMap.isBound (s : AtomicMap) (key : String) : Bool :=
  (s.v.get? key).isSome

/-- The current value of the integer counter `key` is bound to, if it is bound to one. -/
def AtomicMap.intValue? (s : AtomicMap) (key : String) : Option Int :=
  match s.v.get? key with
  | some (Value.atomicInt c) => some c.Get
  | _ => none

/-- Every stored value is a counter (`*AtomicInt` or `*AtomicFloat`). -/
def AtomicMap.WellTyped (s : AtomicMap) : Prop :=
  ∀ e ∈ s.v, e.2.kind?.isSome = true

instance (s : AtomicMap) : Decidable s.WellTyped := by
  unfold AtomicMap.WellTyped; infer_instance

/-- One call on an `AtomicMap`. -/
inductive Call where
  | add (key : String) (value : Int)
  | addFloat (key : String) (value : Float)
  | get (key : String)
  | marshalJSON

/-- Make one call and give the state it leaves, whatever the call does (a panic is
recovered by the caller). -/
def AtomicMap.call (s : AtomicMap) : Call → AtomicMap
  | .add key value => (s.Add key value).state
  | .addFloat key value => (s.AddFloat key value).state
  | .get key => (s.Get key).state
  | .marshalJSON => s.MarshalJSON.state

/-- Make the calls of `cs` one after another and give the state left at the end. -/
def AtomicMap.run (s : AtomicMap) (cs : List Call) : AtomicMap :=
  cs.foldl AtomicMap.call s

/-- The bare number a counter holds, as `MarshalJSON` stores it in `result`. -/
def Value.unwrap : Value → Value
  | .atomicInt c => Value.int64 c.Get
  | .atomicFloat c => Value.float64 c.Get
  | v => v

/-! ## Time: `time.Time`, `time.Duration` and `Duration.Seconds` -/

/-- The integer nearest to `n / d`, a tie going to the even one (`0 < d`). -/
def roundHalfEven (n d : Nat) : Nat :=
  if 2 * (n % d) < d then n / d
  else if d < 2 * (n % d) then n / d + 1
  else if (n / d) % 2 = 0 then n / d
  else n / d + 1

/-- The integer part of the binary logarithm of `n`, computed in at most `fuel` halvings
(`0` for `n < 2`). -/
def log2Fuel : Nat → Nat → Nat
  | 0, _ => 0
  | fuel + 1, n => if n < 2 then 0 else log2Fuel fuel (n / 2) + 1

/-- The integer part of the binary logarithm of `n` (`0` for `n = 0`). -/
def log2 (n : Nat) : Nat :=
  log2Fuel n n

/-- The integer part of the binary logarithm of `n / d`, for `0 < n` and `0 < d`. -/
def floorLog2 (n d : Nat) : Int :=
  if d * 2 ^ log2 n ≤ n * 2 ^ log2 d then (log2 n : Int) - log2 d
  else (log2 n : Int) - log2 d - 1

/-- The `float64` nearest to the rational `n / d ≥ 0` (round to nearest, ties to even, 53
bits of precision), given as a fraction `(p, q)`, `q` a power of two. Exponent limits are
not modelled: the values rounded here lie between `10^-9` and `10^10`. -/
def roundFloat64 (n d : Nat) : Nat × Nat :=
  if n = 0 then (0, 1)
  else
    let sh : Int := 52 - floorLog2 n d
    if 0 ≤ sh then (roundHalfEven (n * 2 ^ sh.toNat) d, 2 ^ sh.toNat)
    else (roundHalfEven n (d * 2 ^ (-sh).toNat) * 2 ^ (-sh).toNat, 1)

/-- The method `t.Sub(u)` of `time.Time`, instants counted in nanoseconds: the difference
as a `Duration` (an `int64` of nanoseconds), the extreme value when it does not fit. -/
def timeSub (t u : Int) : Int :=
  if t - u < -9223372036854775808 then -9223372036854775808
  else if 9223372036854775807 < t - u then 9223372036854775807
  else t - u

/-- The conversion `int64(d.Seconds())` of a `Duration` `d`. `Seconds` computes
`float64(sec) + float64(nsec)/1e9` for `sec = d / 10^9` and `nsec = d % 10^9` (both
truncating), in `float64` arithmetic; the conversion to `int64` drops the fraction. -/
def secondsInt64 (d : Int) : Int :=
  let sec := d.natAbs / 1000000000
  let nsec := d.natAbs % 1000000000
  let frac := roundFloat64 nsec 1000000000
  let sum := roundFloat64 (sec * frac.2 + frac.1) frac.2
  Int.sign d * ((sum.1 / sum.2 : Nat) : Int)

/-- The whole seconds `int64(d.Seconds())` of a duration of `n` nanoseconds, `0 ≤ n`:
`secondsInt64` without the sign. -/
def secondsNat (n : Nat) : Nat :=
  let frac := roundFloat64 (n % 1000000000) 1000000000
  let sum := roundFloat64 (n / 1000000000 * frac.2 + frac.1) frac.2
  sum.1 / sum.2

/-! ## The metrics registry -/

/-- `type httpMetrics struct`. -/
structure httpMetrics where
  Status : AtomicMap

/-- `type apiMetrics struct`. -/
structure apiMetrics where
  Http : httpMetrics

/-- `type goMetrics struct`. -/
structure goMetrics where
  CgoCall : AtomicInt
  NumGoroutine : AtomicInt

/-- `type walMetrics struct`. -/
structure walMetrics where
  Opening : AtomicInt
  CloseEntry : AtomicInt
  BookmarkEntry : AtomicInt
  CommitEntry : AtomicInt
  AppendEntry : AtomicInt

/-- `type coordinatorMetrics struct`. -/
structure coordinatorMetrics where
  CmdDropContinuousQuery : AtomicInt
  CmdListContinuousQuery : AtomicInt
  CmdContinuousQuery : AtomicInt
  CmdQuery : AtomicInt
  CmdSelect : AtomicInt
  CmdWriteSeries : AtomicInt
  CmdDelete : AtomicInt
  CmdDropSeries : AtomicInt
  CmdListSeries : AtomicInt

/-- `type shardMetrics struct`. -/
structure shardMetrics where
  Opening : AtomicInt
  Delete : AtomicInt

/-- `type ServerMetrics struct`. `boot` is an instant in nanoseconds; `once` records
whether the `sync.Once` has run its function. -/
structure ServerMetrics where
  Name : AtomicString
  Version : AtomicString
  Pid : AtomicInt
  Uptime : AtomicInt
  Api : apiMetrics
  Go : goMetrics
  Wal : walMetrics
  Shard : shardMetrics
  Coordinator : coordinatorMetrics
  Custom : GoMap Value
  mu : RWMutex
  boot : Int
  once : Bool

/-- The package variable `Metrics` as `init()` leaves it: every counter zero, the tables
empty, `boot` the instant `time.Now()` read by `init()`. -/
def Metrics (boot : Int) : ServerMetrics :=
  { Name := { v := "" }
    Version := { v := "" }
    Pid := { v := 0 }
    Uptime := { v := 0 }
    Api := { Http := { Status := NewAtomicMap } }
    Wal :=
      { Opening := { v := 0 }
        CloseEntry := { v := 0 }
        BookmarkEntry := { v := 0 }
        CommitEntry := { v := 0 }
        AppendEntry := { v := 0 } }
    Go := { CgoCall := { v := 0 }, NumGoroutine := { v := 0 } }
    Shard := { Opening := { v := 0 }, Delete := { v := 0 } }
    Coordinator :=
      { CmdQuery := { v := 0 }
        CmdDropContinuousQuery := { v := 0 }
        CmdListContinuousQuery := { v := 0 }
        CmdContinuousQuery := { v := 0 }
        CmdSelect := { v := 0 }
        CmdWriteSeries := { v := 0 }
        CmdDelete := { v := 0 }
        CmdDropSeries := { v := 0 }
        CmdListSeries := { v := 0 } }
    Custom := []
    mu := RWMutex.zero
    boot := boot
    once := false }

/-- What one call of `Update` reads from outside the registry: `hostname` is
`config.HostnameOrDetect()`, `now` is `time.Now()` in nanoseconds, `numCgoCall` is
`runtime.NumCgoCall()` and `numGoroutine` is `runtime.NumGoroutine()`. -/
structure UpdateEnv where
  hostname : String
  now : Int
  numCgoCall : Int
  numGoroutine : Int

/-- `ServerMetrics.Update`. The receiver is the package variable `Metrics`, so
`Metrics.boot` is the `boot` of the receiver. -/
def ServerMetrics.Update (s : ServerMetrics) (env : UpdateEnv) : ServerMetrics :=
  let s1 : ServerMetrics :=
    if s.once then s else { s with Name := s.Name.Set env.hostname, once := true }
  let s2 : ServerMetrics :=
    { s1 with Uptime := s1.Uptime.Set (secondsInt64 (timeSub env.now s1.boot)) }
  let s3 : ServerMetrics :=
    { s2 with Go := { CgoCall := s2.Go.CgoCall.Set env.numCgoCall,
                      NumGoroutine := s2.Go.NumGoroutine } }
  { s3 with Go := { CgoCall := s3.Go.CgoCall,
                    NumGoroutine := s3.Go.NumGoroutine.Set env.numGoroutine } }

/-- Calls of `Update`, one after another. -/
def ServerMetrics.updates (s : ServerMetrics) (envs : List UpdateEnv) : ServerMetrics :=
  envs.foldl ServerMetrics.Update s

/-- `ServerMetrics.Register`. The panic leaves before `s.mu.Unlock()`. -/
def ServerMetrics.Register (s : ServerMetrics) (key : String) (v : Value) :
    Outcome ServerMetrics Unit :=
  match s.mu.Lock with
  | none => .block s
  | some mu1 =>
    match s.Custom.get? key with
    | none => .ret () { s with Custom := s.Custom.set key v, mu := mu1.Unlock }
    | some _ => .panic (key ++ " key has already registered") { s with mu := mu1 }

/-- `ServerMetrics.Get`. `s.mu.RUnlock()` is deferred, so it runs on both ways out. When
the key is absent `v` is the zero value of `interface{}`. -/
def ServerMetrics.Get (s : ServerMetrics) (key : String) : Outcome ServerMetrics Value :=
  match s.mu.RLock with
  | none => .block s
  | some mu1 =>
    match s.Custom.get? key with
    | none => .ret Value.nil { s with mu := mu1.RUnlock }
    | some _ => .panic (key ++ " key doesn't find") { s with mu := mu1.RUnlock }

/-! ## Sequences of calls on one `AtomicInt` -/

/-- One mutating call on an `AtomicInt`. -/
inductive IntOp where
  | add (delta : Int)
  | increment
  | decrement
  deriving DecidableEq, Repr

/-- The delta a call stands for: `Increment` counts as `1`, `Decrement` as `-1`. -/
def IntOp.delta : IntOp → Int
  | .add d => d
  | .increment => 1
  | .decrement => -1

/-- Make one call. -/
def AtomicInt.apply (s : AtomicInt) : IntOp → AtomicInt
  | .add d => s.Add d
  | .increment => s.Increment
  | .decrement => s.Decrement

/-- Make the calls of `ops` one after another. -/
def AtomicInt.applyAll (s : AtomicInt) (ops : List IntOp) : AtomicInt :=
  ops.foldl AtomicInt.apply s

/-! ## The time series of package `protocol`, the query engine and the Mackerel adapter -/

/-- The type `protocol.FieldValue`, declared outside the files at hand, as far as they use
it: `DoubleValue` is a `*float64`, `none` when nil. -/
structure FieldValue where
  DoubleValue : Option Float

/-- The type `protocol.Point`, as far as the files at hand use it: `Values` is a
`[]*FieldValue`, `Timestamp` a `*int64`. -/
structure Point where
  Values : List FieldValue
  Timestamp : Option Int

/-- The type `protocol.Series`, as far as the files at hand use it: `Points` is a
`[]*Point`, `Name` a `*string`, `Fields` a `[]string`. -/
structure Series where
  Points : List Point
  Name : Option String
  Fields : List String

/-- The type `parser.SelectQuery`, as far as the engine uses it: `whereCondition` is what
`GetWhereCondition()` returns (`none` for nil) and `queryString` what `GetQueryString()`
returns. `W` is the type of where conditions. -/
structure SelectQuery (W : Type) where
  whereCondition : Option W
  queryString : String

/-- The method `YieldSeries` of the interface `QueryProcessor`: from the state `P` of the
processor and a series to what it answers and the state it leaves. -/
structure QueryProcessor (P : Type) where
  YieldSeries : P → Series → Bool × P

/-- `type SinglePointEngine struct`; `processor` is the state of the downstream
processor. -/
structure SinglePointEngine (W P : Type) where
  query : SelectQuery W
  processor : P
  shouldFilter : Bool

/-- `NewSinglePointEngine`. -/
def NewSinglePointEngine {W P : Type} (query : SelectQuery W) (processor : P) :
    SinglePointEngine W P :=
  { query := query, processor := processor, shouldFilter := query.whereCondition.isSome }

/-- `SinglePointEngine.YieldSeries`. `impl` is the downstream processor and `Filter` the
function `Filter` of package `engine`, which returns a series or an error; the line
written to the log on an error is left out. -/
def SinglePointEngine.YieldSeries {W P E : Type} (impl : QueryProcessor P)
    (Filter : SelectQuery W → Series → Except E Series) (self : SinglePointEngine W P)
    (seriesIncoming : Series) : Bool × SinglePointEngine W P :=
  if !self.shouldFilter then
    let r := impl.YieldSeries self.processor seriesIncoming
    (r.1, { self with processor := r.2 })
  else
    match Filter self.query seriesIncoming with
    | .error _ => (false, self)
    | .ok series =>
      if series.Points.length = 0 then (true, self)
      else
        let r := impl.YieldSeries self.processor series
        (r.1, { self with processor := r.2 })

/-- `SinglePointEngine.YieldPoint`. -/
def SinglePointEngine.YieldPoint {W P E : Type} (impl : QueryProcessor P)
    (Filter : SelectQuery W → Series → Except E Series) (self : SinglePointEngine W P)
    (seriesName : String) (columnNames : List String) (point : Point) :
    Bool × SinglePointEngine W P :=
  self.YieldSeries impl Filter
    { Name := some seriesName, Fields := columnNames, Points := [point] }

/-- A processor that answers as `impl` does and keeps, next to the state of `impl`, the
list of the series it was handed. -/
def QueryProcessor.recording {P : Type} (impl : QueryProcessor P) :
    QueryProcessor (P × List Series) :=
  { YieldSeries := fun st series =>
      ((impl.YieldSeries st.1 series).1, ((impl.YieldSeries st.1 series).2, st.2 ++ [series])) }

/-- `type Metric struct` of package `mackerel`. -/
structure Metric where
  HostId : String
  Name : String
  Time : Float
  Value : Float

/-- The conversion `int64(x)` of a `float64`: the fraction is dropped. For a NaN or a value
outside the range of `int64` the language leaves the result of the conversion to the
machine; what this function gives there stands for no particular machine. -/
def float64ToInt64 (x : Float) : Int :=
  if x < 0 then -((-x).toUInt64.toNat : Int) else (x.toUInt64.toNat : Int)

/-- The body of the loop of `convertMackerelJsonToSeries` for one element `s`. -/
def convertMetric (s : Metric) : Series :=
  { Points :=
      [{ Values := [{ DoubleValue := some s.Value }]
         Timestamp := some (float64ToInt64 (s.Time * 1000000)) }]
    Name := some ("mackerel.host." ++ s.HostId)
    Fields := [s.Name] }

/-- The loop of `convertMackerelJsonToSeries`: `dataStoreSeries` is the slice built so
far. An element of `metric` that is a nil pointer (`none`) makes the loop panic when it
reads `s.HostId`. -/
def convertLoop : List (Option Metric) → List Series → Option (List Series)
  | [], dataStoreSeries => some dataStoreSeries
  | none :: _, _ => none
  | some s :: rest, dataStoreSeries => convertLoop rest (dataStoreSeries ++ [convertMetric s])

/-- `convertMackerelJsonToSeries`; `metric` is a `[]*Metric`, `none` standing for a nil
pointer, and the result is `none` when the function panics. -/
def convertMackerelJsonToSeries (metric : List (Option Metric)) : Option (List Series) :=
  convertLoop metric []

/-! ## The snapshot: what `encoding/json` writes for the registry -/

/-- A JSON document. The members of an object are read by name, at the first member of
that name; their order carries no meaning. -/
inductive Json where
  | null
  | int (n : Int)
  | float (f : Float)
  | str (s : String)
  | obj (members : List (String × Json))

/-- `AtomicInt.MarshalJSON`: `json.Marshal(s.Get())`, a number. -/
def AtomicInt.MarshalJSON (s : AtomicInt) : Json :=
  Json.int s.Get

/-- `AtomicString.MarshalJSON`: `json.Marshal(s.Get())`, a string. -/
def AtomicString.MarshalJSON (s : AtomicString) : Json :=
  Json.str s.Get

/-- What `json.Marshal` gives for a `float64`: a number, or an error (`none`) for a NaN or
an infinity. -/
def marshalFloat64 (f : Float) : Option Json :=
  if f.isFinite then some (Json.float f) else none

/-- `AtomicFloat.MarshalJSON`: `json.Marshal(s.Get())`. -/
def AtomicFloat.MarshalJSON (s : AtomicFloat) : Option Json :=
  marshalFloat64 s.Get

/-- What `json.Marshal` gives for an `interface{}` holding the value: the encoder calls
`MarshalJSON` of a counter and writes the other values as they are; `none` is an error. -/
def Value.toJson? : Value → Option Json
  | .nil => some Json.null
  | .int n => some (Json.int n)
  | .int64 n => some (Json.int n)
  | .float64 f => marshalFloat64 f
  | .string s => some (Json.str s)
  | .atomicInt c => some c.MarshalJSON
  | .atomicFloat c => c.MarshalJSON

/-- What `json.Marshal` gives for the entries of a `map[string]interface{}`: a member for
every entry, under its key; `none` when a value cannot be written. -/
def marshalEntries : GoMap Value → Option (List (String × Json))
  | [] => some []
  | (key, v) :: rest =>
    match v.toJson?, marshalEntries rest with
    | some j, some members => some ((key, j) :: members)
    | _, _ => none

/-- What `json.Marshal(s)` does for the registry `s`. The encoder walks the exported fields
of `ServerMetrics` and of its groups in the order of their declaration, writes each under
the name in its `json` tag, calls `MarshalJSON` of every counter and of the status map (the
bytes that `AtomicMap.MarshalJSON` returns are `json.Marshal(result)`), and writes the
`Custom` table as an object. The fields `mu`, `boot` and `once` are not exported. The value
returned is the document, or `none` for an error. -/
def ServerMetrics.jsonMarshal (s : ServerMetrics) : Outcome ServerMetrics (Option Json) :=
  match s.Api.Http.Status.MarshalJSON with
  | .block st => .block { s with Api := { Http := { Status := st } } }
  | .panic msg st => .panic msg { s with Api := { Http := { Status := st } } }
  | .ret result st =>
    match marshalEntries result, marshalEntries s.Custom with
    | some status, some custom =>
      .ret (some (Json.obj
        [("name", s.Name.MarshalJSON),
         ("version", s.Version.MarshalJSON),
         ("pid", s.Pid.MarshalJSON),
         ("uptime", s.Uptime.MarshalJSON),
         ("api", Json.obj [("http", Json.obj [("status", Json.obj status)])]),
         ("go", Json.obj
           [("cgo_call", s.Go.CgoCall.MarshalJSON),
            ("num_goroutine", s.Go.NumGoroutine.MarshalJSON)]),
         ("wal", Json.obj
           [("opening", s.Wal.Opening.MarshalJSON),
            ("close_entry", s.Wal.CloseEntry.MarshalJSON),
            ("bookmark_entry", s.Wal.BookmarkEntry.MarshalJSON),
            ("commit_entry", s.Wal.CommitEntry.MarshalJSON),
            ("append_entry", s.Wal.AppendEntry.MarshalJSON)]),
         ("shard", Json.obj
           [("opening", s.Shard.Opening.MarshalJSON),
            ("delete", s.Shard.Delete.MarshalJSON)]),
         ("coordinator", Json.obj
           [("cmd_drop_continuous_query", s.Coordinator.CmdDropContinuousQuery.MarshalJSON),
            ("cmd_list_continuous_query", s.Coordinator.CmdListContinuousQuery.MarshalJSON),
            ("cmd_continuous_query", s.Coordinator.CmdContinuousQuery.MarshalJSON),
            ("cmd_query", s.Coordinator.CmdQuery.MarshalJSON),
            ("cmd_select", s.Coordinator.CmdSelect.MarshalJSON),
            ("cmd_write_series", s.Coordinator.CmdWriteSeries.MarshalJSON),
            ("cmd_delete", s.Coordinator.CmdDelete.MarshalJSON),
            ("cmd_drop_series", s.Coordinator.CmdDropSeries.MarshalJSON),
            ("cmd_list_series", s.Coordinator.CmdListSeries.MarshalJSON)]),
         ("custom", Json.obj custom)]))
        { s with Api := { Http := { Status := st } } }
    | _, _ => .ret none { s with Api := { Http := { Status := st } } }

/-- The names of the members of an object, in the order written. -/
def Json.keys : Json → List String
  | .obj members => members.map Prod.fst
  | _ => []

/-- The member of an object under a name. -/
def Json.get? : Json → String → Option Json
  | .obj members, key => GoMap.get? members key
  | _, _ => none

/-- The document found by following the names of `path` from member to member. -/
def Json.path? (doc : Json) (path : List String) : Option Json :=
  path.foldl (fun cur key => cur.bind (fun j => j.get? key)) (some doc)

/-- An example of a registry: the status code `"200"` counted twice and `"404"` once, the
custom metric `"foo"` registered with `42`, the first `Update` made one second after
`boot`. -/
def exampleRegistry : ServerMetrics :=
  { ((Metrics 0).Update
      { hostname := "db1", now := 1000000000, numCgoCall := 3, numGoroutine := 7 }) with
    Api :=
      { Http :=
        { Status :=
            (NewAtomicMap.run [Call.add "200" 1, Call.add "200" 1, Call.add "404" 1]) } },
    Custom := (((Metrics 0).Register "foo" (Value.int 42)).state).Custom }

/-! ## Lemmas on maps and locks -/

theorem GoMap.get?_set_self {α : Type} (m : GoMap α) (k : String) (a : α) :
    GoMap.get? (GoMap.set m k a) k = some a := by
  induction m with
  | nil => simp [GoMap.set, GoMap.get?]
  | cons e rest ih =>
    obtain ⟨k0, b⟩ := e
    by_cases h : k0 = k
    · simp [GoMap.set, GoMap.get?, h]
    · simp [GoMap.set, GoMap.get?, h, ih]

theorem GoMap.get?_set_ne {α : Type} (m : GoMap α) {k j : String} (hkj : k ≠ j) (a : α) :
    GoMap.get? (GoMap.set m k a) j = GoMap.get? m j := by
  induction m with
  | nil => simp [GoMap.set, GoMap.get?, hkj]
  | cons e rest ih =>
    obtain ⟨k0, b⟩ := e
    by_cases h : k0 = k
    · subst h
      simp [GoMap.set, GoMap.get?, hkj]
    · by_cases hj : k0 = j
      · subst hj
        simp [GoMap.set, GoMap.get?, h]
      · simp [GoMap.set, GoMap.get?, h, hj, ih]

theorem GoMap.mem_set {α : Type} {m : GoMap α} {k : String} {a : α} {e : String × α}
    (he : e ∈ GoMap.set m k a) : e ∈ m ∨ e = (k, a) := by
  induction m with
  | nil =>
    right
    simpa [GoMap.set] using he
  | cons e0 rest ih =>
    obtain ⟨k0, b⟩ := e0
    by_cases h : k0 = k
    · subst h
      simp only [GoMap.set, if_true, List.mem_cons] at he
      rcases he with he | he
      · exact Or.inr he
      · exact Or.inl (List.mem_cons_of_mem _ he)
    · simp only [GoMap.set, h, if_false, List.mem_cons] at he
      rcases he with he | he
      · exact Or.inl (he ▸ List.mem_cons_self _ _)
      · rcases ih he with h1 | h1
        · exact Or.inl (List.mem_cons_of_mem _ h1)
        · exact Or.inr h1

theorem GoMap.mem_of_get? {α : Type} {m : GoMap α} {k : String} {a : α}
    (h : GoMap.get? m k = some a) : (k, a) ∈ m := by
  induction m with
  | nil => simp [GoMap.get?] at h
  | cons e0 rest ih =>
    obtain ⟨k0, b⟩ := e0
    by_cases hk : k0 = k
    · subst hk
      simp only [GoMap.get?, if_true, Option.some.injEq] at h
      subst h
      exact List.mem_cons_self _ _
    · simp only [GoMap.get?, hk, if_false] at h
      exact List.mem_cons_of_mem _ (ih h)

theorem GoMap.get?_eq_none_iff {α : Type} (m : GoMap α) (k : String) :
    GoMap.get? m k = none ↔ k ∉ GoMap.keys m := by
  induction m with
  | nil => simp [GoMap.get?, GoMap.keys]
  | cons e0 rest ih =>
    obtain ⟨k0, b⟩ := e0
    by_cases hk : k0 = k
    · simp [GoMap.get?, GoMap.keys, hk]
    · have hk2 : ¬ k = k0 := fun h => hk h.symm
      simp only [GoMap.get?, hk, if_false, ih, GoMap.keys, List.map_cons, List.mem_cons, hk2,
        false_or]

theorem GoMap.keys_set_of_bound {α : Type} (m : GoMap α) (k : String) (a : α)
    (h : (GoMap.get? m k).isSome = true) : GoMap.keys (GoMap.set m k a) = GoMap.keys m := by
  induction m with
  | nil => simp [GoMap.get?] at h
  | cons e0 rest ih =>
    obtain ⟨k0, b⟩ := e0
    by_cases hk : k0 = k
    · simp [GoMap.set, GoMap.keys, hk]
    · simp only [GoMap.get?, hk, if_false] at h
      have := ih h
      simp only [GoMap.keys] at this
      simp [GoMap.set, GoMap.keys, hk, this]

theorem GoMap.keys_set_of_unbound {α : Type} (m : GoMap α) (k : String) (a : α)
    (h : GoMap.get? m k = none) : GoMap.keys (GoMap.set m k a) = GoMap.keys m ++ [k] := by
  induction m with
  | nil => simp [GoMap.set, GoMap.keys]
  | cons e0 rest ih =>
    obtain ⟨k0, b⟩ := e0
    by_cases hk : k0 = k
    · simp [GoMap.get?, hk] at h
    · simp only [GoMap.get?, hk, if_false] at h
      have := ih h
      simp only [GoMap.keys] at this
      simp [GoMap.set, GoMap.keys, hk, this]

theorem RWMutex.Lock_zero : RWMutex.Lock RWMutex.zero = some { w := true, r := 0 } := rfl

theorem RWMutex.Lock_eq_some {m m1 : RWMutex} (h : RWMutex.Lock m = some m1) :
    m = RWMutex.zero ∧ m1 = { w := true, r := 0 } := by
  obtain ⟨w, r⟩ := m
  unfold RWMutex.Lock at h
  split at h
  · rename_i hc
    simp only at hc
    simp only [Option.some.injEq] at h
    exact ⟨by simp [RWMutex.zero, hc.1, hc.2], h.symm⟩
  · simp at h

/-! ## What `Add` and `AddFloat` do, case by case -/

theorem AtomicMap.Add_of_locked (s : AtomicMap) (k : String) (d : Int)
    (h : s.mu ≠ RWMutex.zero) : s.Add k d = .block s := by
  unfold AtomicMap.Add
  cases hl : s.mu.Lock with
  | none => rfl
  | some m1 => exact absurd (RWMutex.Lock_eq_some hl).1 h

theorem AtomicMap.Add_of_unbound (s : AtomicMap) (k : String) (d : Int)
    (hmu : s.mu = RWMutex.zero) (h : GoMap.get? s.v k = none) :
    s.Add k d = .ret ()
      { v := GoMap.set (GoMap.set s.v k (Value.atomicInt { v := 0 })) k
          (Value.atomicInt { v := wrapInt64 (0 + d) }),
        mu := RWMutex.zero } := by
  unfold AtomicMap.Add
  rw [hmu, RWMutex.Lock_zero]
  simp only [h, GoMap.get?_set_self]
  rfl

theorem AtomicMap.Add_of_int (s : AtomicMap) (k : String) (d : Int) (m : AtomicInt)
    (hmu : s.mu = RWMutex.zero) (h : GoMap.get? s.v k = some (Value.atomicInt m)) :
    s.Add k d = .ret ()
      { v := GoMap.set s.v k (Value.atomicInt (m.Add d)), mu := RWMutex.zero } := by
  unfold AtomicMap.Add
  rw [hmu, RWMutex.Lock_zero]
  simp only [h]
  rfl

theorem AtomicMap.Add_of_other (s : AtomicMap) (k : String) (d : Int) (x : Value)
    (hmu : s.mu = RWMutex.zero) (h : GoMap.get? s.v k = some x)
    (hx : x.kind? ≠ some Kind.integer) :
    s.Add k d = .panic ("atomic_map: umatched type for " ++ k)
      { v := s.v, mu := { w := true, r := 0 } } := by
  unfold AtomicMap.Add
  rw [hmu, RWMutex.Lock_zero]
  simp only [h]
  cases x <;> first | rfl | exact absurd rfl hx

theorem AtomicMap.AddFloat_of_locked (s : AtomicMap) (k : String) (f : Float)
    (h : s.mu ≠ RWMutex.zero) : s.AddFloat k f = .block s := by
  unfold AtomicMap.AddFloat
  cases hl : s.mu.Lock with
  | none => rfl
  | some m1 => exact absurd (RWMutex.Lock_eq_some hl).1 h

theorem AtomicMap.AddFloat_of_unbound (s : AtomicMap) (k : String) (f : Float)
    (hmu : s.mu = RWMutex.zero) (h : GoMap.get? s.v k = none) :
    s.AddFloat k f = .ret ()
      { v := GoMap.set (GoMap.set s.v k (Value.atomicFloat { v := 0 })) k
          (Value.atomicFloat { v := 0 + f }),
        mu := RWMutex.zero } := by
  unfold AtomicMap.AddFloat
  rw [hmu, RWMutex.Lock_zero]
  simp only [h, GoMap.get?_set_self]
  rfl

theorem AtomicMap.AddFloat_of_float (s : AtomicMap) (k : String) (f : Float)
    (m : AtomicFloat)
    (hmu : s.mu = RWMutex.zero) (h : GoMap.get? s.v k = some (Value.atomicFloat m)) :
    s.AddFloat k f = .ret ()
      { v := GoMap.set s.v k (Value.atomicFloat (m.Add f)), mu := RWMutex.zero } := by
  unfold AtomicMap.AddFloat
  rw [hmu, RWMutex.Lock_zero]
  simp only [h]
  rfl

theorem AtomicMap.AddFloat_of_other (s : AtomicMap) (k : String) (f : Float) (x : Value)
    (hmu : s.mu = RWMutex.zero) (h : GoMap.get? s.v k = some x)
    (hx : x.kind? ≠ some Kind.float) :
    s.AddFloat k f = .panic ("atomic_map: umatched type for " ++ k)
      { v := s.v, mu := { w := true, r := 0 } } := by
  unfold AtomicMap.AddFloat
  rw [hmu, RWMutex.Lock_zero]
  simp only [h]
  cases x <;> first | rfl | exact absurd rfl hx

/-! ## One call, then any number of calls -/

theorem AtomicMap.Get_state_v (s : AtomicMap) (k : String) : (s.Get k).state.v = s.v := by
  unfold AtomicMap.Get
  cases s.mu.RLock <;> rfl

theorem AtomicMap.MarshalJSON_state_v (s : AtomicMap) : s.MarshalJSON.state.v = s.v := by
  unfold AtomicMap.MarshalJSON
  cases s.mu.RLock with
  | none => rfl
  | some mu1 => cases marshalLoop s.v [] <;> rfl

/-- The entries of a map after one call, compared with those before: `key` is the key of
the call and `new` the kind of counter the call creates. -/
theorem AtomicMap.call_cases (s : AtomicMap) (c : Call) :
    (s.call c).v = s.v ∨
    (∃ k x, GoMap.get? s.v k = some x ∧ x.kind?.isSome = true ∧
      ∃ y, y.kind? = x.kind? ∧ (s.call c).v = GoMap.set s.v k y) ∨
    (∃ k x y, GoMap.get? s.v k = none ∧ x.kind?.isSome = true ∧ y.kind? = x.kind? ∧
      (s.call c).v = GoMap.set (GoMap.set s.v k x) k y) := by
  by_cases hmu : s.mu = RWMutex.zero
  · cases c with
    | add k d =>
      cases hg : GoMap.get? s.v k with
      | none =>
        refine Or.inr (Or.inr ⟨k, Value.atomicInt ⟨0⟩, Value.atomicInt ⟨wrapInt64 (0 + d)⟩,
          hg, rfl, rfl, ?_⟩)
        simp only [AtomicMap.call, AtomicMap.Add_of_unbound s k d hmu hg, Outcome.state]
      | some x =>
        by_cases hx : x.kind? = some Kind.integer
        · cases x <;> simp [Value.kind?] at hx
          rename_i m
          refine Or.inr (Or.inl ⟨k, Value.atomicInt m, hg, rfl,
            Value.atomicInt (m.Add d), rfl, ?_⟩)
          simp only [AtomicMap.call, AtomicMap.Add_of_int s k d m hmu hg, Outcome.state]
        · left
          simp only [AtomicMap.call, AtomicMap.Add_of_other s k d x hmu hg hx, Outcome.state]
    | addFloat k f =>
      cases hg : GoMap.get? s.v k with
      | none =>
        refine Or.inr (Or.inr ⟨k, Value.atomicFloat ⟨0⟩, Value.atomicFloat ⟨0 + f⟩,
          hg, rfl, rfl, ?_⟩)
        simp only [AtomicMap.call, AtomicMap.AddFloat_of_unbound s k f hmu hg, Outcome.state]
      | some x =>
        by_cases hx : x.kind? = some Kind.float
        · cases x <;> simp [Value.kind?] at hx
          rename_i m
          refine Or.inr (Or.inl ⟨k, Value.atomicFloat m, hg, rfl,
            Value.atomicFloat (m.Add f), rfl, ?_⟩)
          simp only [AtomicMap.call, AtomicMap.AddFloat_of_float s k f m hmu hg,
            Outcome.state]
        · left
          simp only [AtomicMap.call, AtomicMap.AddFloat_of_other s k f x hmu hg hx,
            Outcome.state]
    | get k => exact Or.inl (AtomicMap.Get_state_v s k)
    | marshalJSON => exact Or.inl (AtomicMap.MarshalJSON_state_v s)
  · left
    cases c with
    | add k d => simp only [AtomicMap.call, AtomicMap.Add_of_locked s k d hmu, Outcome.state]
    | addFloat k f =>
      simp only [AtomicMap.call, AtomicMap.AddFloat_of_locked s k f hmu, Outcome.state]
    | get k => exact AtomicMap.Get_state_v s k
    | marshalJSON => exact AtomicMap.MarshalJSON_state_v s

/-- A call keeps every bound key bound, to a value of the same kind. -/
theorem AtomicMap.call_get? (s : AtomicMap) (c : Call) (j : String) (x : Value)
    (h : GoMap.get? s.v j = some x) :
    ∃ y, GoMap.get? (s.call c).v j = some y ∧ y.kind? = x.kind? := by
  rcases AtomicMap.call_cases s c with hc | ⟨k, x0, hg, _, y, hy, hc⟩ | ⟨k, x0, y, hg, _, _, hc⟩
  · exact ⟨x, by rw [hc]; exact h, rfl⟩
  · rw [hc]
    by_cases hk : k = j
    · subst hk
      rw [h] at hg
      cases hg
      exact ⟨y, GoMap.get?_set_self _ _ _, hy⟩
    · exact ⟨x, by rw [GoMap.get?_set_ne _ hk]; exact h, rfl⟩
  · rw [hc]
    have hk : k ≠ j := by
      intro hk
      subst hk
      rw [h] at hg
      cases hg
    exact ⟨x, by rw [GoMap.get?_set_ne _ hk, GoMap.get?_set_ne _ hk]; exact h, rfl⟩

/-- A call stores counters only. -/
theorem AtomicMap.call_wellTyped (s : AtomicMap) (c : Call) (h : s.WellTyped) :
    (s.call c).WellTyped := by
  intro e he
  rcases AtomicMap.call_cases s c with hc | ⟨k, x0, _, hx0, y, hy, hc⟩ |
      ⟨k, x0, y, _, hx0, hy, hc⟩
  · rw [hc] at he
    exact h e he
  · rw [hc] at he
    rcases GoMap.mem_set he with h1 | h1
    · exact h e h1
    · rw [h1]
      simpa [hy] using hx0
  · rw [hc] at he
    rcases GoMap.mem_set he with h1 | h1
    · rcases GoMap.mem_set h1 with h2 | h2
      · exact h e h2
      · rw [h2]
        exact hx0
    · rw [h1]
      simpa [hy] using hx0

/-- A call never gives a key two entries. -/
theorem AtomicMap.call_nodup (s : AtomicMap) (c : Call) (h : (GoMap.keys s.v).Nodup) :
    (GoMap.keys (s.call c).v).Nodup := by
  rcases AtomicMap.call_cases s c with hc | ⟨k, x0, hg, _, y, _, hc⟩ |
      ⟨k, x0, y, hg, _, _, hc⟩
  · rw [hc]
    exact h
  · rw [hc, GoMap.keys_set_of_bound _ _ _ (by rw [hg]; rfl)]
    exact h
  · rw [hc, GoMap.keys_set_of_bound _ _ _ (by rw [GoMap.get?_set_self]; rfl),
      GoMap.keys_set_of_unbound _ _ _ hg]
    rw [List.nodup_append]
    refine ⟨h, List.nodup_singleton k, ?_⟩
    intro a ha hb
    rw [List.mem_singleton] at hb
    subst hb
    exact ((GoMap.get?_eq_none_iff _ _).1 hg) ha

theorem AtomicMap.run_nil (s : AtomicMap) : s.run [] = s := rfl

theorem AtomicMap.run_cons (s : AtomicMap) (c : Call) (cs : List Call) :
    s.run (c :: cs) = (s.call c).run cs := rfl

theorem AtomicMap.run_append (s : AtomicMap) (cs cs2 : List Call) :
    s.run (cs ++ cs2) = (s.run cs).run cs2 := by
  simp [AtomicMap.run, List.foldl_append]

/-- Any number of calls keep every bound key bound, to a value of the same kind. -/
theorem AtomicMap.run_get? (cs : List Call) (s : AtomicMap) (j : String) (x : Value)
    (h : GoMap.get? s.v j = some x) :
    ∃ y, GoMap.get? (s.run cs).v j = some y ∧ y.kind? = x.kind? := by
  induction cs generalizing s x with
  | nil => exact ⟨x, h, rfl⟩
  | cons c cs ih =>
    obtain ⟨y, hy, hk⟩ := AtomicMap.call_get? s c j x h
    obtain ⟨z, hz, hk2⟩ := ih (s.call c) y hy
    exact ⟨z, by rw [AtomicMap.run_cons]; exact hz, hk2.trans hk⟩

/-- Any number of calls store counters only. -/
theorem AtomicMap.run_wellTyped (cs : List Call) (s : AtomicMap) (h : s.WellTyped) :
    (s.run cs).WellTyped := by
  induction cs generalizing s with
  | nil => exact h
  | cons c cs ih => exact ih _ (AtomicMap.call_wellTyped s c h)

/-- Any number of calls never give a key two entries. -/
theorem AtomicMap.run_nodup (cs : List Call) (s : AtomicMap) (h : (GoMap.keys s.v).Nodup) :
    (GoMap.keys (s.run cs).v).Nodup := by
  induction cs generalizing s with
  | nil => exact h
  | cons c cs ih => exact ih _ (AtomicMap.call_nodup s c h)

theorem NewAtomicMap_wellTyped : NewAtomicMap.WellTyped := by
  intro e he
  simp [NewAtomicMap] at he

theorem AtomicMap.kind_of_wellTyped (s : AtomicMap) (h : s.WellTyped) (k : String)
    (x : Value) (hx : GoMap.get? s.v k = some x) : x.kind?.isSome = true :=
  h (k, x) (GoMap.mem_of_get? hx)

theorem wrapInt64_of_isInt64 {n : Int} (h : IsInt64 n) : wrapInt64 n = n := by
  unfold IsInt64 at h
  unfold wrapInt64
  omega

theorem isInt64_wrapInt64 (n : Int) : IsInt64 (wrapInt64 n) := by
  unfold IsInt64 wrapInt64
  omega

theorem AtomicMap.intValue?_eq_some {s : AtomicMap} {k : String} {v : Int}
    (h : s.intValue? k = some v) : GoMap.get? s.v k = some (Value.atomicInt { v := v }) := by
  unfold AtomicMap.intValue? at h
  split at h
  · rename_i c hc
    simp only [AtomicInt.Get, Option.some.injEq] at h
    rw [hc, ← h]
  · cases h

theorem GoMap.set_of_unbound {α : Type} (m : GoMap α) (k : String) (a : α)
    (h : GoMap.get? m k = none) : GoMap.set m k a = m ++ [(k, a)] := by
  induction m with
  | nil => rfl
  | cons e0 rest ih =>
    obtain ⟨k0, b⟩ := e0
    by_cases hk : k0 = k
    · simp [GoMap.get?, hk] at h
    · simp only [GoMap.get?, hk, if_false] at h
      simp [GoMap.set, hk, ih h]

theorem GoMap.get?_map {α β : Type} (f : α → β) (m : GoMap α) (k : String) :
    GoMap.get? (m.map (fun e => (e.1, f e.2))) k = (GoMap.get? m k).map f := by
  induction m with
  | nil => rfl
  | cons e0 rest ih =>
    obtain ⟨k0, b⟩ := e0
    by_cases hk : k0 = k
    · simp [GoMap.get?, hk]
    · simp only [List.map_cons, GoMap.get?, hk, if_false]
      exact ih

/-- On entries that are counters under distinct keys, none of them a key of `acc`, the
loop of `MarshalJSON` appends every entry, unwrapped, to `acc`. -/
theorem marshalLoop_eq (m : GoMap Value) (acc : GoMap Value)
    (hwt : ∀ e ∈ m, e.2.kind?.isSome = true)
    (hnd : (GoMap.keys acc ++ GoMap.keys m).Nodup) :
    marshalLoop m acc = some (acc ++ m.map (fun e => (e.1, e.2.unwrap))) := by
  induction m generalizing acc with
  | nil => simp [marshalLoop]
  | cons e0 rest ih =>
    obtain ⟨k, x⟩ := e0
    have hk : GoMap.get? acc k = none := by
      rw [GoMap.get?_eq_none_iff]
      intro hmem
      have := (List.nodup_append.1 hnd).2.2
      exact this hmem (by simp [GoMap.keys])
    have hrest : ∀ e ∈ rest, e.2.kind?.isSome = true :=
      fun e he => hwt e (List.mem_cons_of_mem _ he)
    have hnd2 : ∀ y : Value, (GoMap.keys (acc ++ [(k, y)]) ++ GoMap.keys rest).Nodup := by
      intro y
      simpa [GoMap.keys] using hnd
    have hx := hwt (k, x) (List.mem_cons_self _ _)
    cases x with
    | atomicInt c =>
      simp only [marshalLoop]
      rw [GoMap.set_of_unbound _ _ _ hk, ih _ hrest (hnd2 _)]
      simp [Value.unwrap]
    | atomicFloat c =>
      simp only [marshalLoop]
      rw [GoMap.set_of_unbound _ _ _ hk, ih _ hrest (hnd2 _)]
      simp [Value.unwrap]
    | nil => simp [Value.kind?] at hx
    | int n => simp [Value.kind?] at hx
    | int64 n => simp [Value.kind?] at hx
    | float64 n => simp [Value.kind?] at hx
    | string n => simp [Value.kind?] at hx

/-- On entries that are counters the loop of `MarshalJSON` runs to its end. -/
theorem marshalLoop_isSome (m : GoMap Value) (acc : GoMap Value)
    (hwt : ∀ e ∈ m, e.2.kind?.isSome = true) : (marshalLoop m acc).isSome = true := by
  induction m generalizing acc with
  | nil => rfl
  | cons e0 rest ih =>
    obtain ⟨k, x⟩ := e0
    have hrest : ∀ e ∈ rest, e.2.kind?.isSome = true :=
      fun e he => hwt e (List.mem_cons_of_mem _ he)
    have hx := hwt (k, x) (List.mem_cons_self _ _)
    cases x with
    | atomicInt c => simpa only [marshalLoop] using ih _ hrest
    | atomicFloat c => simpa only [marshalLoop] using ih _ hrest
    | nil => simp [Value.kind?] at hx
    | int n => simp [Value.kind?] at hx
    | int64 n => simp [Value.kind?] at hx
    | float64 n => simp [Value.kind?] at hx
    | string n => simp [Value.kind?] at hx

theorem RWMutex.RUnlock_RLock (m : RWMutex) (h : m.w = false) :
    m.RLock = some { w := false, r := m.r + 1 } ∧
    RWMutex.RUnlock { w := false, r := m.r + 1 } = m := by
  obtain ⟨w, r⟩ := m
  simp only at h
  subst h
  exact ⟨rfl, rfl⟩

theorem wrapInt64_add_wrapInt64 (a b : Int) :
    wrapInt64 (wrapInt64 a + b) = wrapInt64 (a + b) := by
  unfold wrapInt64
  omega

theorem AtomicInt.apply_v (s : AtomicInt) (op : IntOp) :
    (s.apply op).v = wrapInt64 (s.v + op.delta) := by
  cases op <;> rfl

theorem AtomicInt.applyAll_v (ops : List IntOp) (s : AtomicInt) (hs : IsInt64 s.v) :
    (s.applyAll ops).v = wrapInt64 (s.v + (ops.map IntOp.delta).sum) := by
  induction ops generalizing s with
  | nil => simp [AtomicInt.applyAll, wrapInt64_of_isInt64 hs]
  | cons op rest ih =>
    have h := ih (s.apply op) (by rw [AtomicInt.apply_v]; exact isInt64_wrapInt64 _)
    simp only [AtomicInt.applyAll, List.foldl_cons] at h ⊢
    rw [h, AtomicInt.apply_v, wrapInt64_add_wrapInt64, List.map_cons, List.sum_cons,
      add_assoc]

/-! ## The claims on `AtomicMap` -/

/-- C1: on a map that stores counters only and whose lock is free when the call is made,
`Add(k, d)` panics exactly when `k` is bound to a float counter, and `AddFloat(k, f)`
panics exactly when `k` is bound to an integer counter. -/
theorem add_panics_iff_bound_to_other_kind (s : AtomicMap) (k : String) (d : Int)
    (f : Float) (hwt : s.WellTyped) (hmu : s.mu = RWMutex.zero) :
    ((s.Add k d).isPanic = true ↔ s.kindOf k = some Kind.float) ∧
    ((s.AddFloat k f).isPanic = true ↔ s.kindOf k = some Kind.integer) := by
  unfold AtomicMap.kindOf
  cases hg : GoMap.get? s.v k with
  | none =>
    rw [AtomicMap.Add_of_unbound s k d hmu hg, AtomicMap.AddFloat_of_unbound s k f hmu hg]
    simp [Outcome.isPanic]
  | some x =>
    have hk := AtomicMap.kind_of_wellTyped s hwt k x hg
    cases x with
    | atomicInt m =>
      rw [AtomicMap.Add_of_int s k d m hmu hg,
        AtomicMap.AddFloat_of_other s k f _ hmu hg (by simp [Value.kind?])]
      simp [Outcome.isPanic, Value.kind?]
    | atomicFloat m =>
      rw [AtomicMap.AddFloat_of_float s k f m hmu hg,
        AtomicMap.Add_of_other s k d _ hmu hg (by simp [Value.kind?])]
      simp [Outcome.isPanic, Value.kind?]
    | nil => simp [Value.kind?] at hk
    | int n => simp [Value.kind?] at hk
    | int64 n => simp [Value.kind?] at hk
    | float64 n => simp [Value.kind?] at hk
    | string n => simp [Value.kind?] at hk

/-- C1, on the example of the specification: after `Add("k", 5)` and `Add("k", 3)` the call
`AddFloat("k", 1.0)` panics. -/
theorem add_panics_iff_bound_to_other_kind_witness :
    ((NewAtomicMap.Add "k" 5).state.Add "k" 3).state.WellTyped ∧
    ((NewAtomicMap.Add "k" 5).state.Add "k" 3).state.mu = RWMutex.zero ∧
    (((NewAtomicMap.Add "k" 5).state.Add "k" 3).state.AddFloat "k" 1.0).isPanic = true :=
  ⟨by decide, by decide,
    (add_panics_iff_bound_to_other_kind ((NewAtomicMap.Add "k" 5).state.Add "k" 3).state
      "k" 0 1.0 (by decide) (by decide)).2.2 (by decide)⟩

/-- C2, as stated, fails where the 64-bit addition overflows: with `k` bound to an integer
counter of value `2^63 - 1`, `Add("k", 1)` leaves the value `-2^63`, not `2^63`. -/
theorem add_value_overflow_counterexample :
    (NewAtomicMap.Add "k" 9223372036854775807).state.mu = RWMutex.zero ∧
    IsInt64 1 ∧
    (NewAtomicMap.Add "k" 9223372036854775807).state.intValue? "k"
      = some 9223372036854775807 ∧
    ((NewAtomicMap.Add "k" 9223372036854775807).state.Add "k" 1).state.intValue? "k"
      = some (-9223372036854775808) ∧
    ((NewAtomicMap.Add "k" 9223372036854775807).state.Add "k" 1).state.intValue? "k"
      ≠ some (9223372036854775807 + 1) := by
  refine ⟨by decide, by decide, by decide, by decide, by decide⟩

/-- C2, amended: with the lock free and `d` an `int64`, `Add(k, d)` on an unbound `k`
returns and leaves `k` bound to an integer counter of value `d`; on a `k` bound to an
integer counter of value `v` it returns and leaves the value `v + d` reduced to the
`int64` range, which is `v + d` itself whenever `v + d` is in that range. -/
theorem add_applies_delta_wrapping (s : AtomicMap) (k : String) (d : Int)
    (hmu : s.mu = RWMutex.zero) (hd : IsInt64 d) :
    (s.isBound k = false →
      (s.Add k d).isRet = true ∧ (s.Add k d).state.kindOf k = some Kind.integer ∧
      (s.Add k d).state.intValue? k = some d) ∧
    (∀ v, s.intValue? k = some v →
      (s.Add k d).isRet = true ∧ (s.Add k d).state.kindOf k = some Kind.integer ∧
      (s.Add k d).state.intValue? k = some (wrapInt64 (v + d)) ∧
      (IsInt64 (v + d) → (s.Add k d).state.intValue? k = some (v + d))) := by
  constructor
  · intro hb
    have hg : GoMap.get? s.v k = none := by
      unfold AtomicMap.isBound at hb
      cases h : GoMap.get? s.v k with
      | none => rfl
      | some x => simp [h] at hb
    rw [AtomicMap.Add_of_unbound s k d hmu hg]
    refine ⟨rfl, ?_, ?_⟩
    · simp [Outcome.state, AtomicMap.kindOf, GoMap.get?_set_self, Value.kind?]
    · simp only [Outcome.state, AtomicMap.intValue?, GoMap.get?_set_self, AtomicInt.Get,
        zero_add, wrapInt64_of_isInt64 hd]
  · intro v hv
    have hg := AtomicMap.intValue?_eq_some hv
    rw [AtomicMap.Add_of_int s k d _ hmu hg]
    refine ⟨rfl, ?_, ?_, ?_⟩
    · simp [Outcome.state, AtomicMap.kindOf, GoMap.get?_set_self, Value.kind?]
    · simp only [Outcome.state, AtomicMap.intValue?, GoMap.get?_set_self, AtomicInt.Get,
        AtomicInt.Add]
    · intro hr
      simp only [Outcome.state, AtomicMap.intValue?, GoMap.get?_set_self, AtomicInt.Get,
        AtomicInt.Add, wrapInt64_of_isInt64 hr]

/-- C2, amended, on the example of the specification: on a fresh map `Add("k", 5)` then
`Add("k", 3)` leaves `k` bound to an integer counter of value `8`. -/
theorem add_applies_delta_wrapping_witness :
    (NewAtomicMap.Add "k" 5).state.mu = RWMutex.zero ∧ IsInt64 3 ∧
    (NewAtomicMap.Add "k" 5).state.intValue? "k" = some 5 ∧
    ((NewAtomicMap.Add "k" 5).state.Add "k" 3).isRet = true ∧
    ((NewAtomicMap.Add "k" 5).state.Add "k" 3).state.kindOf "k" = some Kind.integer ∧
    ((NewAtomicMap.Add "k" 5).state.Add "k" 3).state.intValue? "k" = some 8 :=
  have h := (add_applies_delta_wrapping (NewAtomicMap.Add "k" 5).state "k" 3
    (by decide) (by decide)).2 5 (by decide)
  ⟨by decide, by decide, by decide, h.1, h.2.1, h.2.2.2 (by decide)⟩

/-- C3: in a map reached from `NewAtomicMap()` by any calls (`Add`, `AddFloat`, and `Get`
and `MarshalJSON` as well), a key that is bound is bound to a counter kind, and after any
further calls, failed ones included, it is still bound, to the same kind. -/
theorem binding_kind_is_permanent (cs cs2 : List Call) (k : String)
    (h : (NewAtomicMap.run cs).isBound k = true) :
    ((NewAtomicMap.run cs).kindOf k).isSome = true ∧
    (NewAtomicMap.run (cs ++ cs2)).isBound k = true ∧
    (NewAtomicMap.run (cs ++ cs2)).kindOf k = (NewAtomicMap.run cs).kindOf k := by
  unfold AtomicMap.isBound at h
  cases hg : GoMap.get? (NewAtomicMap.run cs).v k with
  | none => simp [hg] at h
  | some x =>
    have hwt := AtomicMap.run_wellTyped cs NewAtomicMap NewAtomicMap_wellTyped
    have hk := AtomicMap.kind_of_wellTyped _ hwt k x hg
    obtain ⟨y, hy, hyk⟩ := AtomicMap.run_get? cs2 (NewAtomicMap.run cs) k x hg
    rw [AtomicMap.run_append]
    refine ⟨?_, ?_, ?_⟩
    · simpa [AtomicMap.kindOf, hg] using hk
    · simp [AtomicMap.isBound, hy]
    · simp [AtomicMap.kindOf, hg, hy, hyk]

/-- C3 on an example: `"k"`, bound by `Add("k", 5)`, is still an integer key after
`Add("k", 3)`, `Get("k")`, `AddFloat("j", 2.0)`, `MarshalJSON()` and a failing
`AddFloat("k", 1.0)`. -/
theorem binding_kind_is_permanent_witness :
    (NewAtomicMap.run [Call.add "k" 5]).isBound "k" = true ∧
    (NewAtomicMap.run ([Call.add "k" 5] ++
      [Call.add "k" 3, Call.get "k", Call.addFloat "j" 2.0, Call.marshalJSON,
        Call.addFloat "k" 1.0])).kindOf "k" = some Kind.integer :=
  ⟨by decide,
    (binding_kind_is_permanent [Call.add "k" 5]
      [Call.add "k" 3, Call.get "k", Call.addFloat "j" 2.0, Call.marshalJSON,
        Call.addFloat "k" 1.0] "k" (by decide)).2.2.trans (by decide)⟩

/-! ## The claims on the registry -/

/-- C4: with the lock free, `Register(k, v)` returns and binds `k` to `v`, changing nothing
else, when `k` is not in the `Custom` table; it panics exactly when `k` is already in the
table; and a panicking `Register` leaves the `Custom` table as it was. -/
theorem register_binds_or_panics (s : ServerMetrics) (k : String) (v : Value)
    (hmu : s.mu = RWMutex.zero) :
    (GoMap.get? s.Custom k = none →
      s.Register k v = .ret () { s with Custom := GoMap.set s.Custom k v } ∧
      GoMap.get? (s.Register k v).state.Custom k = some v) ∧
    ((s.Register k v).isPanic = true ↔ (GoMap.get? s.Custom k).isSome = true) ∧
    ((s.Register k v).isPanic = true → (s.Register k v).state.Custom = s.Custom) := by
  unfold ServerMetrics.Register
  rw [hmu, RWMutex.Lock_zero]
  cases hg : GoMap.get? s.Custom k with
  | none =>
    refine ⟨fun _ => ⟨?_, ?_⟩, ?_, ?_⟩
    · simp only [RWMutex.Unlock, hmu]
      rfl
    · simp only [Outcome.state, GoMap.get?_set_self]
    · simp [Outcome.isPanic]
    · simp [Outcome.isPanic]
  | some x =>
    refine ⟨fun h => Option.noConfusion h, ?_, ?_⟩
    · simp [Outcome.isPanic]
    · intro _
      simp [Outcome.state]

/-- C4 on the example of the specification: after `Register("foo", 42)` the call
`Register("foo", 99)` panics and the table still maps `"foo"` to `42`. -/
theorem register_binds_or_panics_witness :
    (((Metrics 0).Register "foo" (Value.int 42)).state).mu = RWMutex.zero ∧
    ((((Metrics 0).Register "foo" (Value.int 42)).state).Register "foo"
      (Value.int 99)).isPanic = true ∧
    GoMap.get? ((((Metrics 0).Register "foo" (Value.int 42)).state).Register "foo"
      (Value.int 99)).state.Custom "foo" = some (Value.int 42) :=
  have h := register_binds_or_panics (((Metrics 0).Register "foo" (Value.int 42)).state)
    "foo" (Value.int 99) (by decide)
  ⟨by decide, h.2.1.2 (by rfl), by rw [h.2.2 (h.2.1.2 (by rfl))]; rfl⟩

/-- C5, the code at the failing input: after `Register("foo", 42)` the lookup `Get("foo")`
panics with the message for a key that is not found, and `Get("bar")`, a key never
registered, returns the nil interface. -/
theorem get_custom_inverted_at_foo :
    (((Metrics 0).Register "foo" (Value.int 42)).state.Get "foo").isPanic = true ∧
    (∃ t, ((Metrics 0).Register "foo" (Value.int 42)).state.Get "foo"
      = .panic "foo key doesn't find" t) ∧
    (∃ t, ((Metrics 0).Register "foo" (Value.int 42)).state.Get "bar"
      = .ret Value.nil t) :=
  ⟨by rfl, ⟨_, by rfl⟩, ⟨_, by rfl⟩⟩

theorem ServerMetrics.Update_name_of_once (s : ServerMetrics) (env : UpdateEnv)
    (h : s.once = true) : (s.Update env).Name = s.Name ∧ (s.Update env).once = true := by
  simp [ServerMetrics.Update, h]

theorem ServerMetrics.Update_name_of_fresh (s : ServerMetrics) (env : UpdateEnv)
    (h : s.once = false) :
    (s.Update env).Name.Get = env.hostname ∧ (s.Update env).once = true := by
  simp [ServerMetrics.Update, h, AtomicString.Set, AtomicString.Get]

theorem ServerMetrics.updates_name_of_once (envs : List UpdateEnv) (s : ServerMetrics)
    (h : s.once = true) : (s.updates envs).Name = s.Name := by
  induction envs generalizing s with
  | nil => rfl
  | cons e rest ih =>
    have h1 := ServerMetrics.Update_name_of_once s e h
    have h2 := ih (s.Update e) h1.2
    simp only [ServerMetrics.updates, List.foldl_cons] at h2 ⊢
    rw [h2, h1.1]

/-- C6: on the registry as `init()` leaves it, after the first call of `Update` and after
every later one, whatever identity it is given, `Name` is the identity of the first
call. -/
theorem update_name_first_caller_wins (boot : Int) (first : UpdateEnv)
    (later : List UpdateEnv) (n : Nat) :
    ((Metrics boot).updates (first :: later.take n)).Name.Get = first.hostname := by
  have h1 := ServerMetrics.Update_name_of_fresh (Metrics boot) first rfl
  have h2 := ServerMetrics.updates_name_of_once (later.take n) ((Metrics boot).Update first)
    h1.2
  simp only [ServerMetrics.updates, List.foldl_cons] at h2 ⊢
  rw [h2, h1.1]

/-! ## The claims on `AtomicMap.Get`, `MarshalJSON` and `AtomicInt` -/

/-- C7: on a map that stores counters only, no writer holding the lock, `Get(k)` returns
without failing and leaves the map as it was; it returns the value stored for `k`, which
is not nil, when `k` is bound, and nil when `k` is not bound. -/
theorem get_returns_stored_or_nil (s : AtomicMap) (k : String) (hwt : s.WellTyped)
    (hmu : s.mu.w = false) :
    (∀ x, GoMap.get? s.v k = some x → s.Get k = .ret x s ∧ x ≠ Value.nil) ∧
    (GoMap.get? s.v k = none → s.Get k = .ret Value.nil s) := by
  obtain ⟨h1, h2⟩ := RWMutex.RUnlock_RLock s.mu hmu
  constructor
  · intro x hx
    constructor
    · unfold AtomicMap.Get
      rw [h1]
      simp only [hx, h2]
    · intro hnil
      have := AtomicMap.kind_of_wellTyped s hwt k x hx
      rw [hnil] at this
      simp [Value.kind?] at this
  · intro hx
    unfold AtomicMap.Get
    rw [h1]
    simp only [hx, h2]

/-- C7 on the example of the specification: after `Add("k", 5)` and `Add("k", 3)`,
`Get("k")` returns the integer counter holding `8` and leaves the map as it was. -/
theorem get_returns_stored_or_nil_witness :
    ((NewAtomicMap.Add "k" 5).state.Add "k" 3).state.WellTyped ∧
    ((NewAtomicMap.Add "k" 5).state.Add "k" 3).state.mu.w = false ∧
    ((NewAtomicMap.Add "k" 5).state.Add "k" 3).state.Get "k"
      = .ret (Value.atomicInt { v := 8 }) ((NewAtomicMap.Add "k" 5).state.Add "k" 3).state :=
  ⟨by decide, by decide,
    ((get_returns_stored_or_nil ((NewAtomicMap.Add "k" 5).state.Add "k" 3).state "k"
      (by decide) (by decide)).1 (Value.atomicInt { v := 8 }) (by rfl)).1⟩

/-- C8: in a map reached from `NewAtomicMap()` by calls of `Add` and `AddFloat` (and of
`Get` and `MarshalJSON`), no writer holding the lock, `MarshalJSON` returns, leaves the map
as it was, and hands the encoder a mapping with the keys of the map, in which an integer
key maps to the `int64` its counter holds and a float key to the `float64` its counter
holds. -/
theorem marshal_hands_unwrapped_values (cs : List Call)
    (hmu : (NewAtomicMap.run cs).mu.w = false) :
    ∃ result, (NewAtomicMap.run cs).MarshalJSON = .ret result (NewAtomicMap.run cs) ∧
      GoMap.keys result = GoMap.keys (NewAtomicMap.run cs).v ∧
      (∀ k, GoMap.get? result k = none ↔ GoMap.get? (NewAtomicMap.run cs).v k = none) ∧
      (∀ k c, GoMap.get? (NewAtomicMap.run cs).v k = some (Value.atomicInt c) →
        GoMap.get? result k = some (Value.int64 c.Get)) ∧
      (∀ k c, GoMap.get? (NewAtomicMap.run cs).v k = some (Value.atomicFloat c) →
        GoMap.get? result k = some (Value.float64 c.Get)) := by
  have hwt := AtomicMap.run_wellTyped cs NewAtomicMap NewAtomicMap_wellTyped
  have hnd := AtomicMap.run_nodup cs NewAtomicMap (by simp [NewAtomicMap, GoMap.keys])
  obtain ⟨h1, h2⟩ := RWMutex.RUnlock_RLock (NewAtomicMap.run cs).mu hmu
  have hloop := marshalLoop_eq (NewAtomicMap.run cs).v [] hwt (by simpa [GoMap.keys] using hnd)
  refine ⟨(NewAtomicMap.run cs).v.map (fun e => (e.1, e.2.unwrap)), ?_, ?_, ?_, ?_, ?_⟩
  · unfold AtomicMap.MarshalJSON
    rw [h1, hloop]
    simp only [List.nil_append, h2]
  · simp [GoMap.keys]
  · intro k
    rw [GoMap.get?_map]
    simp
  · intro k c hc
    rw [GoMap.get?_map, hc]
    rfl
  · intro k c hc
    rw [GoMap.get?_map, hc]
    rfl

/-- C8 on the example of the specification: the map with `"200"` incremented twice and
`"404"` once hands the encoder `{"200": 2, "404": 1}`. -/
theorem marshal_hands_unwrapped_values_witness :
    (NewAtomicMap.run [Call.add "200" 1, Call.add "200" 1, Call.add "404" 1]).mu.w = false ∧
    ∃ result,
      (NewAtomicMap.run [Call.add "200" 1, Call.add "200" 1, Call.add "404" 1]).MarshalJSON
        = .ret result
            (NewAtomicMap.run [Call.add "200" 1, Call.add "200" 1, Call.add "404" 1]) ∧
      GoMap.keys result = ["200", "404"] ∧
      GoMap.get? result "200" = some (Value.int64 2) ∧
      GoMap.get? result "404" = some (Value.int64 1) := by
  obtain ⟨result, h1, h2, _, h4, _⟩ := marshal_hands_unwrapped_values
    [Call.add "200" 1, Call.add "200" 1, Call.add "404" 1] (by decide)
  exact ⟨by decide, result, h1, h2.trans (by decide), h4 "200" { v := 2 } (by rfl),
    h4 "404" { v := 1 } (by rfl)⟩

/-- C9: in a map reached from `NewAtomicMap()` by any calls of `Add` and `AddFloat` (and of
`Get` and `MarshalJSON`), failed ones included, every stored value is an integer counter or
a float counter, and `MarshalJSON` does not panic. -/
theorem marshal_never_panics (cs : List Call) :
    (∀ k x, GoMap.get? (NewAtomicMap.run cs).v k = some x →
      (∃ c, x = Value.atomicInt c) ∨ (∃ c, x = Value.atomicFloat c)) ∧
    (NewAtomicMap.run cs).MarshalJSON.isPanic = false := by
  have hwt := AtomicMap.run_wellTyped cs NewAtomicMap NewAtomicMap_wellTyped
  constructor
  · intro k x hx
    have hk := AtomicMap.kind_of_wellTyped _ hwt k x hx
    cases x with
    | atomicInt c => exact Or.inl ⟨c, rfl⟩
    | atomicFloat c => exact Or.inr ⟨c, rfl⟩
    | nil => simp [Value.kind?] at hk
    | int n => simp [Value.kind?] at hk
    | int64 n => simp [Value.kind?] at hk
    | float64 n => simp [Value.kind?] at hk
    | string n => simp [Value.kind?] at hk
  · unfold AtomicMap.MarshalJSON
    cases (NewAtomicMap.run cs).mu.RLock with
    | none => rfl
    | some mu1 =>
      have hs := marshalLoop_isSome (NewAtomicMap.run cs).v [] hwt
      cases hl : marshalLoop (NewAtomicMap.run cs).v [] with
      | none => simp [hl] at hs
      | some result => rfl

/-- C10, as stated, fails where the 64-bit sum overflows: after `Add(2^63 - 1)` and
`Increment()` on a fresh `AtomicInt`, `Get()` is `-2^63`, and the sum of the deltas is
`2^63`. -/
theorem atomicInt_sum_overflow_counterexample :
    (AtomicInt.applyAll { v := 0 } [IntOp.add 9223372036854775807, IntOp.increment]).Get
      = -9223372036854775808 ∧
    (AtomicInt.applyAll { v := 0 } [IntOp.add 9223372036854775807, IntOp.increment]).Get
      ≠ ([IntOp.add 9223372036854775807, IntOp.increment].map IntOp.delta).sum := by
  refine ⟨by decide, by decide⟩

/-- C10, amended: after any calls of `Add`, `Increment` and `Decrement` on a fresh
`AtomicInt`, `Get()` is the sum of the deltas reduced to the `int64` range; it is the sum
itself when the sum is in that range, and `N` calls of `Increment` give `N` for every
`N < 2^63`. -/
theorem atomicInt_get_is_wrapped_sum (ops : List IntOp) :
    (AtomicInt.applyAll { v := 0 } ops).Get = wrapInt64 (ops.map IntOp.delta).sum ∧
    (IsInt64 (ops.map IntOp.delta).sum →
      (AtomicInt.applyAll { v := 0 } ops).Get = (ops.map IntOp.delta).sum) ∧
    (∀ N : Nat, ops = List.replicate N IntOp.increment → (N : Int) < 9223372036854775808 →
      (AtomicInt.applyAll { v := 0 } ops).Get = N) := by
  have h := AtomicInt.applyAll_v ops { v := 0 } (by decide)
  simp only [zero_add] at h
  refine ⟨h, ?_, ?_⟩
  · intro hr
    rw [AtomicInt.Get, h, wrapInt64_of_isInt64 hr]
  · intro N hN hlt
    have hsum : (ops.map IntOp.delta).sum = N := by
      rw [hN]
      simp [IntOp.delta]
    rw [AtomicInt.Get, h, hsum]
    apply wrapInt64_of_isInt64
    unfold IsInt64
    omega

/-- C10, amended, on examples: `Add(5)`, `Increment()`, `Decrement()`, `Add(-7)` give
`-2`, and three calls of `Increment` give `3`. -/
theorem atomicInt_get_is_wrapped_sum_witness :
    (AtomicInt.applyAll { v := 0 }
      [IntOp.add 5, IntOp.increment, IntOp.decrement, IntOp.add (-7)]).Get = -2 ∧
    (AtomicInt.applyAll { v := 0 } (List.replicate 3 IntOp.increment)).Get = 3 :=
  ⟨(atomicInt_get_is_wrapped_sum
      [IntOp.add 5, IntOp.increment, IntOp.decrement, IntOp.add (-7)]).2.1 (by decide),
   (atomicInt_get_is_wrapped_sum (List.replicate 3 IntOp.increment)).2.2 3 rfl (by decide)⟩

/-! ## Overwriting, the lookup as written, and what calls leave alone -/

/-- C11: for `AtomicInt`, `AtomicFloat` and `AtomicString`, whatever the state before,
`Set(x)` followed by `Get()` gives `x`; `Get` only reads, so a second `Get()` gives `x`
again. -/
theorem set_then_get_returns_value (i : AtomicInt) (f : AtomicFloat) (t : AtomicString)
    (x : Int) (y : Float) (z : String) :
    (i.Set x).Get = x ∧ (f.Set y).Get = y ∧ (t.Set z).Get = z ∧
    ((i.Add 7).Set x).Get = x ∧ ((f.Add 2.5).Set y).Get = y ∧ ((t.Set "w").Set z).Get = z ∧
    (AtomicString.Set { v := "" } "x").Get = "x" :=
  ⟨rfl, rfl, rfl, rfl, rfl, rfl, rfl⟩

/-- C15: with no writer holding the lock, `ServerMetrics.Get(k)` as written panics, with
the message for a key that is not found, when `k` is in the `Custom` table, and returns
the nil interface without failing when `k` is absent; either way the registry is left as
it was. -/
theorem get_custom_as_written (s : ServerMetrics) (k : String) (hmu : s.mu.w = false) :
    (∀ v, GoMap.get? s.Custom k = some v →
      s.Get k = .panic (k ++ " key doesn't find") s) ∧
    (GoMap.get? s.Custom k = none → s.Get k = .ret Value.nil s) := by
  obtain ⟨h1, h2⟩ := RWMutex.RUnlock_RLock s.mu hmu
  constructor
  · intro v hv
    unfold ServerMetrics.Get
    rw [h1]
    simp only [hv, h2]
  · intro hv
    unfold ServerMetrics.Get
    rw [h1]
    simp only [hv, h2]

/-- C15 on an example: after `Register("up", 1)`, `Get("up")` panics and `Get("down")`
returns nil. -/
theorem get_custom_as_written_witness :
    ((Metrics 0).Register "up" (Value.int 1)).state.mu.w = false ∧
    ((Metrics 0).Register "up" (Value.int 1)).state.Get "up"
      = .panic "up key doesn't find" ((Metrics 0).Register "up" (Value.int 1)).state ∧
    ((Metrics 0).Register "up" (Value.int 1)).state.Get "down"
      = .ret Value.nil ((Metrics 0).Register "up" (Value.int 1)).state :=
  ⟨by decide,
    (get_custom_as_written ((Metrics 0).Register "up" (Value.int 1)).state "up"
      (by decide)).1 (Value.int 1) (by rfl),
    (get_custom_as_written ((Metrics 0).Register "up" (Value.int 1)).state "down"
      (by decide)).2 (by rfl)⟩

/-- C16, the code at the failing inputs: the panicking `Add("k", 1)` on a map where `"k"`
is a float key, and the panicking `Register("foo", 99)` on a registry where `"foo"` is
registered, leave the contents as they were but leave the lock held by a writer, where a
successful call leaves it free; the next `Add`, `Get`, `MarshalJSON` or `Register` then
never gets the lock. -/
theorem failed_call_leaves_lock_held :
    ((NewAtomicMap.AddFloat "k" 1.0).state.Add "k" 1).isPanic = true ∧
    ((NewAtomicMap.AddFloat "k" 1.0).state.Add "k" 1).state.v
      = (NewAtomicMap.AddFloat "k" 1.0).state.v ∧
    (NewAtomicMap.AddFloat "k" 1.0).state.mu = { w := false, r := 0 } ∧
    ((NewAtomicMap.AddFloat "k" 1.0).state.Add "k" 1).state.mu = { w := true, r := 0 } ∧
    (((NewAtomicMap.AddFloat "k" 1.0).state.Add "k" 1).state.Add "j" 1).isBlock = true ∧
    (((NewAtomicMap.AddFloat "k" 1.0).state.Add "k" 1).state.Get "k").isBlock = true ∧
    (((NewAtomicMap.AddFloat "k" 1.0).state.Add "k" 1).state.MarshalJSON).isBlock = true ∧
    ((NewAtomicMap.Add "k" 1).state.AddFloat "k" 1.0).isPanic = true ∧
    ((NewAtomicMap.Add "k" 1).state.AddFloat "k" 1.0).state.mu = { w := true, r := 0 } ∧
    (((Metrics 0).Register "foo" (Value.int 42)).state.Register "foo"
      (Value.int 99)).isPanic = true ∧
    GoMap.get? (((Metrics 0).Register "foo" (Value.int 42)).state.Register "foo"
      (Value.int 99)).state.Custom "foo" = some (Value.int 42) ∧
    ((Metrics 0).Register "foo" (Value.int 42)).state.mu = { w := false, r := 0 } ∧
    (((Metrics 0).Register "foo" (Value.int 42)).state.Register "foo"
      (Value.int 99)).state.mu = { w := true, r := 0 } ∧
    ((((Metrics 0).Register "foo" (Value.int 42)).state.Register "foo"
      (Value.int 99)).state.Register "bar" (Value.int 1)).isBlock = true :=
  ⟨by rfl, by rfl, by rfl, by rfl, by rfl, by rfl, by rfl, by rfl, by rfl, by rfl, by rfl,
    by rfl, by rfl, by rfl⟩

/-- C17: `Update` leaves `Version`, `Pid`, the `wal`, `shard` and `coordinator` counters,
the `api` group with its status map, the `Custom` table, the lock and `boot` as they
were; and it leaves `Name` as it was in every call after the first. -/
theorem update_frame (s : ServerMetrics) (env : UpdateEnv) :
    (s.Update env).Version = s.Version ∧ (s.Update env).Pid = s.Pid ∧
    (s.Update env).Wal = s.Wal ∧ (s.Update env).Shard = s.Shard ∧
    (s.Update env).Coordinator = s.Coordinator ∧ (s.Update env).Api = s.Api ∧
    (s.Update env).Custom = s.Custom ∧ (s.Update env).mu = s.mu ∧
    (s.Update env).boot = s.boot ∧
    (s.once = true → (s.Update env).Name = s.Name) := by
  cases h : s.once <;> simp [ServerMetrics.Update, h]

/-- C17 on an example: a second `Update`, given another host name, leaves `Name` and the
`Custom` table as the first call left them. -/
theorem update_frame_witness :
    ((Metrics 0).Update
      { hostname := "db1", now := 5, numCgoCall := 0, numGoroutine := 1 }).once = true ∧
    (((Metrics 0).Update
      { hostname := "db1", now := 5, numCgoCall := 0, numGoroutine := 1 }).Update
      { hostname := "db2", now := 9, numCgoCall := 4, numGoroutine := 2 }).Name
      = ((Metrics 0).Update
        { hostname := "db1", now := 5, numCgoCall := 0, numGoroutine := 1 }).Name ∧
    (((Metrics 0).Update
      { hostname := "db1", now := 5, numCgoCall := 0, numGoroutine := 1 }).Update
      { hostname := "db2", now := 9, numCgoCall := 4, numGoroutine := 2 }).Custom
      = ((Metrics 0).Update
        { hostname := "db1", now := 5, numCgoCall := 0, numGoroutine := 1 }).Custom :=
  have h := update_frame
    ((Metrics 0).Update { hostname := "db1", now := 5, numCgoCall := 0, numGoroutine := 1 })
    { hostname := "db2", now := 9, numCgoCall := 4, numGoroutine := 2 }
  ⟨rfl, h.2.2.2.2.2.2.2.2.2 rfl, h.2.2.2.2.2.2.1⟩

/-- C18: for distinct keys `k` and `j`, a call `Add(k, d)` or `AddFloat(k, f)`, whatever
it does, leaves what `j` is bound to as it was: bound or not, its kind, its value. -/
theorem add_leaves_other_keys (s : AtomicMap) (k j : String) (d : Int) (f : Float)
    (hkj : k ≠ j) :
    GoMap.get? (s.Add k d).state.v j = GoMap.get? s.v j ∧
    GoMap.get? (s.AddFloat k f).state.v j = GoMap.get? s.v j ∧
    (s.Add k d).state.isBound j = s.isBound j ∧
    (s.AddFloat k f).state.isBound j = s.isBound j ∧
    (s.Add k d).state.kindOf j = s.kindOf j ∧
    (s.AddFloat k f).state.kindOf j = s.kindOf j := by
  have h1 : GoMap.get? (s.Add k d).state.v j = GoMap.get? s.v j := by
    by_cases hmu : s.mu = RWMutex.zero
    · cases hg : GoMap.get? s.v k with
      | none =>
        rw [AtomicMap.Add_of_unbound s k d hmu hg]
        simp only [Outcome.state, GoMap.get?_set_ne _ hkj]
      | some x =>
        by_cases hx : x.kind? = some Kind.integer
        · cases x <;> simp [Value.kind?] at hx
          rename_i m
          rw [AtomicMap.Add_of_int s k d m hmu hg]
          simp only [Outcome.state, GoMap.get?_set_ne _ hkj]
        · rw [AtomicMap.Add_of_other s k d x hmu hg hx]
          rfl
    · rw [AtomicMap.Add_of_locked s k d hmu]
      rfl
  have h2 : GoMap.get? (s.AddFloat k f).state.v j = GoMap.get? s.v j := by
    by_cases hmu : s.mu = RWMutex.zero
    · cases hg : GoMap.get? s.v k with
      | none =>
        rw [AtomicMap.AddFloat_of_unbound s k f hmu hg]
        simp only [Outcome.state, GoMap.get?_set_ne _ hkj]
      | some x =>
        by_cases hx : x.kind? = some Kind.float
        · cases x <;> simp [Value.kind?] at hx
          rename_i m
          rw [AtomicMap.AddFloat_of_float s k f m hmu hg]
          simp only [Outcome.state, GoMap.get?_set_ne _ hkj]
        · rw [AtomicMap.AddFloat_of_other s k f x hmu hg hx]
          rfl
    · rw [AtomicMap.AddFloat_of_locked s k f hmu]
      rfl
  refine ⟨h1, h2, ?_, ?_, ?_, ?_⟩
  · simp only [AtomicMap.isBound, h1]
  · simp only [AtomicMap.isBound, h2]
  · simp only [AtomicMap.kindOf, h1]
  · simp only [AtomicMap.kindOf, h2]

/-- C18 on an example: with `"j"` an integer key of value `5`, `Add("k", 1)` leaves `"j"`
at `5`, and `Add("z", 1)` adds no entry for `"k"`. -/
theorem add_leaves_other_keys_witness :
    ("k" : String) ≠ "j" ∧
    ((NewAtomicMap.Add "j" 5).state.Add "k" 1).state.intValue? "j" = some 5 ∧
    ((NewAtomicMap.Add "j" 5).state.Add "z" 1).state.isBound "k" = false :=
  ⟨by decide,
    by
      have h := (add_leaves_other_keys (NewAtomicMap.Add "j" 5).state "k" "j" 1 1.0
        (by decide)).1
      simp only [AtomicMap.intValue?, h]
      rfl,
    ((add_leaves_other_keys (NewAtomicMap.Add "j" 5).state "z" "k" 1 1.0
      (by decide)).2.2.1).trans (by decide)⟩

/-! ## The query engine and the Mackerel adapter -/

/-- C19: for the engine that `NewSinglePointEngine` builds from a query and a processor,
`YieldSeries` answers as follows. Without a where condition it hands the incoming series,
as it is, to the processor and returns its answer. With a where condition: when `Filter`
reports an error it returns `false`, and when the filtered series has no points it returns
`true`, in both cases without a call to the processor; otherwise it hands the filtered
series to the processor and returns its answer. The list of the series handed to the
processor is given for the recording processor. `YieldPoint` is `YieldSeries` on the
series with that name, those fields and the one point. -/
theorem yieldSeries_filters_then_delegates {W P E : Type} (impl : QueryProcessor P)
    (Filter : SelectQuery W → Series → Except E Series) (query : SelectQuery W)
    (processor : P) (seriesIncoming : Series) :
    (query.whereCondition = none →
      (NewSinglePointEngine query processor).YieldSeries impl Filter seriesIncoming
        = ((impl.YieldSeries processor seriesIncoming).1,
           NewSinglePointEngine query (impl.YieldSeries processor seriesIncoming).2) ∧
      ((NewSinglePointEngine query (processor, ([] : List Series))).YieldSeries
        impl.recording Filter seriesIncoming).2.processor.2 = [seriesIncoming]) ∧
    (query.whereCondition.isSome = true →
      (∀ e, Filter query seriesIncoming = .error e →
        (NewSinglePointEngine query processor).YieldSeries impl Filter seriesIncoming
          = (false, NewSinglePointEngine query processor) ∧
        ((NewSinglePointEngine query (processor, ([] : List Series))).YieldSeries
          impl.recording Filter seriesIncoming).2.processor.2 = []) ∧
      (∀ series, Filter query seriesIncoming = .ok series → series.Points.length = 0 →
        (NewSinglePointEngine query processor).YieldSeries impl Filter seriesIncoming
          = (true, NewSinglePointEngine query processor) ∧
        ((NewSinglePointEngine query (processor, ([] : List Series))).YieldSeries
          impl.recording Filter seriesIncoming).2.processor.2 = []) ∧
      (∀ series, Filter query seriesIncoming = .ok series → series.Points.length ≠ 0 →
        (NewSinglePointEngine query processor).YieldSeries impl Filter seriesIncoming
          = ((impl.YieldSeries processor series).1,
             NewSinglePointEngine query (impl.YieldSeries processor series).2) ∧
        ((NewSinglePointEngine query (processor, ([] : List Series))).YieldSeries
          impl.recording Filter seriesIncoming).2.processor.2 = [series])) ∧
    (∀ (seriesName : String) (columnNames : List String) (point : Point),
      (NewSinglePointEngine query processor).YieldPoint impl Filter seriesName columnNames
          point
        = (NewSinglePointEngine query processor).YieldSeries impl Filter
            { Name := some seriesName, Fields := columnNames, Points := [point] }) := by
  refine ⟨?_, ?_, ?_⟩
  · intro hw
    simp [NewSinglePointEngine, SinglePointEngine.YieldSeries, hw,
      QueryProcessor.recording]
  · intro hw
    refine ⟨?_, ?_, ?_⟩
    · intro e he
      simp [NewSinglePointEngine, SinglePointEngine.YieldSeries, hw, he]
    · intro series hs hl
      simp [NewSinglePointEngine, SinglePointEngine.YieldSeries, hw, hs, hl]
    · intro series hs hl
      simp [NewSinglePointEngine, SinglePointEngine.YieldSeries, hw, hs, hl,
        QueryProcessor.recording]
  · intro seriesName columnNames point
    rfl

/-- C19 on an example: a processor that counts its calls and answers `true`, a filter
that drops every point; with the where condition the processor is not called, without it
the processor is called once. -/
theorem yieldSeries_filters_then_delegates_witness :
    ((NewSinglePointEngine { whereCondition := some (), queryString := "q" } (0 : Nat)).YieldSeries
        { YieldSeries := fun n _ => (true, n + 1) }
        (fun _ s => (Except.ok { s with Points := [] } : Except String Series))
        { Name := some "cpu", Fields := ["v"], Points := [{ Values := [], Timestamp := none }] })
      = (true, NewSinglePointEngine { whereCondition := some (), queryString := "q" } 0) ∧
    ((NewSinglePointEngine { whereCondition := (none : Option Unit), queryString := "q" }
        (0 : Nat)).YieldSeries
        { YieldSeries := fun n _ => (true, n + 1) }
        (fun _ s => (Except.ok { s with Points := [] } : Except String Series))
        { Name := some "cpu", Fields := ["v"], Points := [{ Values := [], Timestamp := none }] })
      = (true, NewSinglePointEngine { whereCondition := none, queryString := "q" } 1) :=
  by
    have h1 := yieldSeries_filters_then_delegates { YieldSeries := fun n _ => (true, n + 1) }
      (fun _ s => (Except.ok { s with Points := [] } : Except String Series))
      { whereCondition := some (), queryString := "q" } (0 : Nat)
      { Name := some "cpu", Fields := ["v"],
        Points := [{ Values := [], Timestamp := none }] }
    have h2 := yieldSeries_filters_then_delegates { YieldSeries := fun n _ => (true, n + 1) }
      (fun _ s => (Except.ok { s with Points := [] } : Except String Series))
      { whereCondition := (none : Option Unit), queryString := "q" } (0 : Nat)
      { Name := some "cpu", Fields := ["v"],
        Points := [{ Values := [], Timestamp := none }] }
    exact ⟨((h1.2.1 rfl).2.1 _ rfl rfl).1, (h2.1 rfl).1⟩

theorem convertLoop_map_some (ms : List Metric) (acc : List Series) :
    convertLoop (ms.map some) acc = some (acc ++ ms.map convertMetric) := by
  induction ms generalizing acc with
  | nil => simp [convertLoop]
  | cons m rest ih =>
    simp only [List.map_cons, convertLoop, ih]
    simp

/-- C20: for every list of metrics, none of them a nil pointer,
`convertMackerelJsonToSeries` returns a list of as many series, and the series at the
place of a metric is named `"mackerel.host."` followed by its `HostId`, has the one field
`Name` of the metric, and has one point with one value, whose double is the `Value` of the
metric. -/
theorem convert_one_series_per_metric (ms : List Metric) :
    ∃ out, convertMackerelJsonToSeries (ms.map some) = some out ∧
      out.length = ms.length ∧
      ∀ (i : Nat) (m : Metric), ms[i]? = some m →
        ∃ sr : Series, out[i]? = some sr ∧
          sr.Name = some ("mackerel.host." ++ m.HostId) ∧
          sr.Fields = [m.Name] ∧
          ∃ ts : Option Int,
            sr.Points = [{ Values := [{ DoubleValue := some m.Value }], Timestamp := ts }] := by
  refine ⟨ms.map convertMetric, ?_, ?_, ?_⟩
  · rw [convertMackerelJsonToSeries, convertLoop_map_some]
    rfl
  · simp
  · intro i m hm
    refine ⟨convertMetric m, ?_, rfl, rfl, _, rfl⟩
    rw [List.getElem?_map, hm]
    rfl

/-- C20 on an example: two metrics of the hosts `"a"` and `"b"` give two series, named
`"mackerel.host.a"` and `"mackerel.host.b"`, in that order. -/
theorem convert_one_series_per_metric_witness :
    ∃ out,
      convertMackerelJsonToSeries
        ([{ HostId := "a", Name := "load", Time := 1, Value := 2 },
          { HostId := "b", Name := "mem", Time := 1, Value := 3 }].map some) = some out ∧
      out.map (fun sr => sr.Name) = [some "mackerel.host.a", some "mackerel.host.b"] ∧
      out.map (fun sr => sr.Fields) = [["load"], ["mem"]] := by
  obtain ⟨out, h1, _, _⟩ := convert_one_series_per_metric
    [{ HostId := "a", Name := "load", Time := 1, Value := 2 },
     { HostId := "b", Name := "mem", Time := 1, Value := 3 }]
  refine ⟨out, h1, ?_, ?_⟩
  · have h2 : some out = some ([{ HostId := "a", Name := "load", Time := 1, Value := 2 },
        { HostId := "b", Name := "mem", Time := 1, Value := 3 }].map convertMetric) := by
      rw [← h1]
      rfl
    cases h2
    rfl
  · have h2 : some out = some ([{ HostId := "a", Name := "load", Time := 1, Value := 2 },
        { HostId := "b", Name := "mem", Time := 1, Value := 3 }].map convertMetric) := by
      rw [← h1]
      rfl
    cases h2
    rfl

/-! ## The snapshot -/

theorem marshalEntries_some {m : GoMap Value} {members : List (String × Json)}
    (h : marshalEntries m = some members) :
    (∀ k, GoMap.get? members k = (GoMap.get? m k).bind Value.toJson?) ∧
    members.map Prod.fst = m.map Prod.fst ∧
    (∀ k v, GoMap.get? m k = some v → v.toJson?.isSome = true) := by
  induction m generalizing members with
  | nil =>
    simp only [marshalEntries, Option.some.injEq] at h
    subst h
    exact ⟨fun k => rfl, rfl, fun k v hv => by simp [GoMap.get?] at hv⟩
  | cons e rest ih =>
    obtain ⟨k0, v0⟩ := e
    simp only [marshalEntries] at h
    cases hj : v0.toJson? with
    | none => simp [hj] at h
    | some j =>
      cases hr : marshalEntries rest with
      | none => simp [hj, hr] at h
      | some ms =>
        simp only [hj, hr, Option.some.injEq] at h
        subst h
        obtain ⟨h1, h2, h3⟩ := ih hr
        refine ⟨?_, ?_, ?_⟩
        · intro k
          by_cases hk : k0 = k
          · simp [GoMap.get?, hk, hj]
          · simp only [GoMap.get?, hk, if_false]
            exact h1 k
        · simp [h2]
        · intro k v hv
          by_cases hk : k0 = k
          · simp only [GoMap.get?, hk, if_true, Option.some.injEq] at hv
            subst hv
            simp [hj]
          · simp only [GoMap.get?, hk, if_false] at hv
            exact h3 k v hv

theorem marshalEntries_isSome (m : GoMap Value)
    (h : ∀ e ∈ m, e.2.toJson?.isSome = true) : (marshalEntries m).isSome = true := by
  induction m with
  | nil => rfl
  | cons e rest ih =>
    obtain ⟨k0, v0⟩ := e
    have h0 := h (k0, v0) (List.mem_cons_self _ _)
    have hr := ih (fun e he => h e (List.mem_cons_of_mem _ he))
    simp only [marshalEntries]
    cases hj : v0.toJson? with
    | none => simp [hj] at h0
    | some j =>
      cases hm : marshalEntries rest with
      | none => simp [hm] at hr
      | some ms => rfl

theorem Value.toJson?_unwrap (v : Value) : v.unwrap.toJson? = v.toJson? := by
  cases v <;> rfl

/-- Every entry the loop of `MarshalJSON` leaves in `result` was in `acc` or is an entry of
the map, unwrapped. -/
theorem marshalLoop_mem (m : GoMap Value) (acc result : GoMap Value)
    (h : marshalLoop m acc = some result) :
    ∀ e ∈ result, e ∈ acc ∨ ∃ e0 ∈ m, e0.2.kind?.isSome = true ∧ e.2 = e0.2.unwrap := by
  induction m generalizing acc with
  | nil =>
    simp only [marshalLoop, Option.some.injEq] at h
    subst h
    exact fun e he => Or.inl he
  | cons e0 rest ih =>
    obtain ⟨k, x⟩ := e0
    intro e he
    cases x with
    | atomicInt c =>
      simp only [marshalLoop] at h
      rcases ih _ h e he with h1 | ⟨e1, he1, hk1, hu1⟩
      · rcases GoMap.mem_set h1 with h2 | h2
        · exact Or.inl h2
        · exact Or.inr ⟨(k, Value.atomicInt c), List.mem_cons_self _ _, rfl, by rw [h2]; rfl⟩
      · exact Or.inr ⟨e1, List.mem_cons_of_mem _ he1, hk1, hu1⟩
    | atomicFloat c =>
      simp only [marshalLoop] at h
      rcases ih _ h e he with h1 | ⟨e1, he1, hk1, hu1⟩
      · rcases GoMap.mem_set h1 with h2 | h2
        · exact Or.inl h2
        · exact Or.inr ⟨(k, Value.atomicFloat c), List.mem_cons_self _ _, rfl,
            by rw [h2]; rfl⟩
      · exact Or.inr ⟨e1, List.mem_cons_of_mem _ he1, hk1, hu1⟩
    | nil => simp [marshalLoop] at h
    | int n => simp [marshalLoop] at h
    | int64 n => simp [marshalLoop] at h
    | float64 n => simp [marshalLoop] at h
    | string n => simp [marshalLoop] at h

/-- C13: whenever `json.Marshal` gives a document for the registry, the document is the
object with the members `name`, `version`, `pid`, `uptime`, `api`, `go`, `wal`, `shard`,
`coordinator` and `custom`, nested as the fixed fields are, every leaf the current value of
its counter; `api.http.status` holds what the status map hands to the encoder, member by
member, and `custom` holds every registered entry under its key, and no other name. It does
give a document, and leaves the registry as it was, when the status map stores counters
only, no writer holds its lock, and every value of the status map and of the `Custom`
table is one the encoder can write. -/
theorem snapshot_has_fixed_shape (s : ServerMetrics) :
    (∀ doc st, s.jsonMarshal = .ret (some doc) st →
      ∃ result status custom,
        s.Api.Http.Status.MarshalJSON = .ret result st.Api.Http.Status ∧
        (∀ k, GoMap.get? status k = (GoMap.get? result k).bind Value.toJson?) ∧
        (∀ k v, GoMap.get? result k = some v → v.toJson?.isSome = true) ∧
        (∀ k, GoMap.get? custom k = (GoMap.get? s.Custom k).bind Value.toJson?) ∧
        (∀ k v, GoMap.get? s.Custom k = some v → v.toJson?.isSome = true) ∧
        doc = Json.obj
          [("name", Json.str s.Name.Get),
           ("version", Json.str s.Version.Get),
           ("pid", Json.int s.Pid.Get),
           ("uptime", Json.int s.Uptime.Get),
           ("api", Json.obj [("http", Json.obj [("status", Json.obj status)])]),
           ("go", Json.obj
             [("cgo_call", Json.int s.Go.CgoCall.Get),
              ("num_goroutine", Json.int s.Go.NumGoroutine.Get)]),
           ("wal", Json.obj
             [("opening", Json.int s.Wal.Opening.Get),
              ("close_entry", Json.int s.Wal.CloseEntry.Get),
              ("bookmark_entry", Json.int s.Wal.BookmarkEntry.Get),
              ("commit_entry", Json.int s.Wal.CommitEntry.Get),
              ("append_entry", Json.int s.Wal.AppendEntry.Get)]),
           ("shard", Json.obj
             [("opening", Json.int s.Shard.Opening.Get),
              ("delete", Json.int s.Shard.Delete.Get)]),
           ("coordinator", Json.obj
             [("cmd_drop_continuous_query", Json.int s.Coordinator.CmdDropContinuousQuery.Get),
              ("cmd_list_continuous_query", Json.int s.Coordinator.CmdListContinuousQuery.Get),
              ("cmd_continuous_query", Json.int s.Coordinator.CmdContinuousQuery.Get),
              ("cmd_query", Json.int s.Coordinator.CmdQuery.Get),
              ("cmd_select", Json.int s.Coordinator.CmdSelect.Get),
              ("cmd_write_series", Json.int s.Coordinator.CmdWriteSeries.Get),
              ("cmd_delete", Json.int s.Coordinator.CmdDelete.Get),
              ("cmd_drop_series", Json.int s.Coordinator.CmdDropSeries.Get),
              ("cmd_list_series", Json.int s.Coordinator.CmdListSeries.Get)]),
           ("custom", Json.obj custom)]) ∧
    (s.Api.Http.Status.WellTyped → s.Api.Http.Status.mu.w = false →
      (∀ e ∈ s.Api.Http.Status.v, e.2.toJson?.isSome = true) →
      (∀ e ∈ s.Custom, e.2.toJson?.isSome = true) →
      ∃ doc, s.jsonMarshal = .ret (some doc) s) := by
  constructor
  · intro doc st h
    unfold ServerMetrics.jsonMarshal at h
    cases hm : s.Api.Http.Status.MarshalJSON with
    | block st0 => simp [hm] at h
    | panic msg st0 => simp [hm] at h
    | ret result st0 =>
      simp only [hm] at h
      cases hs : marshalEntries result with
      | none => simp [hs] at h
      | some status =>
        cases hc : marshalEntries s.Custom with
        | none => simp [hs, hc] at h
        | some custom =>
          simp only [hs, hc, Outcome.ret.injEq, Option.some.injEq] at h
          obtain ⟨hdoc, hst⟩ := h
          obtain ⟨a1, _, a3⟩ := marshalEntries_some hs
          obtain ⟨b1, _, b3⟩ := marshalEntries_some hc
          refine ⟨result, status, custom, ?_, a1, a3, b1, b3, ?_⟩
          · rw [← hst]
          · rw [← hdoc]
            rfl
  · intro hwt hmu hfin hcustom
    obtain ⟨h1, h2⟩ := RWMutex.RUnlock_RLock s.Api.Http.Status.mu hmu
    have hloop := marshalLoop_isSome s.Api.Http.Status.v [] hwt
    cases hl : marshalLoop s.Api.Http.Status.v [] with
    | none => simp [hl] at hloop
    | some result =>
      have hm : s.Api.Http.Status.MarshalJSON = .ret result s.Api.Http.Status := by
        unfold AtomicMap.MarshalJSON
        rw [h1]
        simp only [hl, h2]
      have hres : ∀ e ∈ result, e.2.toJson?.isSome = true := by
        intro e he
        rcases marshalLoop_mem _ _ _ hl e he with h3 | ⟨e0, he0, _, hu⟩
        · simp at h3
        · rw [hu, Value.toJson?_unwrap]
          exact hfin e0 he0
      have hs := marshalEntries_isSome result hres
      have hc := marshalEntries_isSome s.Custom hcustom
      cases hs2 : marshalEntries result with
      | none => simp [hs2] at hs
      | some status =>
        cases hc2 : marshalEntries s.Custom with
        | none => simp [hc2] at hc
        | some custom =>
          unfold ServerMetrics.jsonMarshal
          simp only [hm, hs2, hc2]
          exact ⟨_, rfl⟩

/-- C13 on an example: the registry with the status codes `"200"` counted twice and
`"404"` once and with `"foo"` registered as `42` gives a document with the ten members, in
which `api.http.status.200` is `2`, `custom.foo` is `42`, `name` is the host name and
`uptime` is `1`. -/
theorem snapshot_has_fixed_shape_witness :
    ∃ doc, exampleRegistry.jsonMarshal = .ret (some doc) exampleRegistry ∧
      doc.keys = ["name", "version", "pid", "uptime", "api", "go", "wal", "shard",
        "coordinator", "custom"] ∧
      doc.path? ["api", "http", "status", "200"] = some (Json.int 2) ∧
      doc.path? ["api", "http", "status", "404"] = some (Json.int 1) ∧
      doc.path? ["custom", "foo"] = some (Json.int 42) ∧
      doc.path? ["name"] = some (Json.str "db1") ∧
      doc.path? ["uptime"] = some (Json.int 1) ∧
      doc.path? ["go", "num_goroutine"] = some (Json.int 7) ∧
      doc.path? ["wal", "commit_entry"] = some (Json.int 0) := by
  obtain ⟨doc, hdoc⟩ := (snapshot_has_fixed_shape exampleRegistry).2 (by decide) (by decide)
    (by decide) (by decide)
  obtain ⟨result, status, custom, hres, hst, _, hcu, _, hd⟩ :=
    (snapshot_has_fixed_shape exampleRegistry).1 doc exampleRegistry hdoc
  have hr : result = [("200", Value.int64 2), ("404", Value.int64 1)] := by
    have h0 : exampleRegistry.Api.Http.Status.MarshalJSON
        = .ret [("200", Value.int64 2), ("404", Value.int64 1)]
            exampleRegistry.Api.Http.Status := by rfl
    rw [h0] at hres
    injection hres with h1 _
    exact h1.symm
  subst hr
  have s200 := hst "200"
  have s404 := hst "404"
  have cfoo := hcu "foo"
  refine ⟨doc, hdoc, ?_, ?_, ?_, ?_, ?_, ?_, ?_, ?_⟩
  · rw [hd]; rfl
  · rw [hd]
    simpa [Json.path?, Json.get?, GoMap.get?] using s200
  · rw [hd]
    simpa [Json.path?, Json.get?, GoMap.get?] using s404
  · rw [hd]
    simpa [Json.path?, Json.get?, GoMap.get?] using cfoo
  · rw [hd]; rfl
  · rw [hd]; rfl
  · rw [hd]; rfl
  · rw [hd]; rfl

/-! ## Rounding to `float64` and the whole seconds of a duration -/

theorem log2Fuel_spec (fuel : Nat) :
    ∀ n, 0 < n → n ≤ fuel → 2 ^ log2Fuel fuel n ≤ n ∧ n < 2 ^ (log2Fuel fuel n + 1) := by
  induction fuel with
  | zero =>
    intro n h1 h2
    omega
  | succ f ih =>
    intro n h1 h2
    unfold log2Fuel
    split_ifs with h
    · simp
      omega
    · have h3 := ih (n / 2) (by omega) (by omega)
      rw [pow_succ, pow_succ]
      rw [pow_succ] at h3
      omega

theorem log2_spec (n : Nat) (h : 0 < n) : 2 ^ log2 n ≤ n ∧ n < 2 ^ (log2 n + 1) :=
  log2Fuel_spec n n h (le_refl n)

/-- `M + 1 ≤ roundHalfEven n d` exactly when `n / d` is above `M + 1/2`, or equal to it
with `M + 1` even. -/
theorem roundHalfEven_ge_iff (n d M : Nat) (hd : 0 < d) :
    M + 1 ≤ roundHalfEven n d ↔
      (2 * M + 1) * d < 2 * n ∨ ((2 * M + 1) * d = 2 * n ∧ (M + 1) % 2 = 0) := by
  have hn : d * (n / d) + n % d = n := Nat.div_add_mod n d
  have hr : n % d < d := Nat.mod_lt n hd
  unfold roundHalfEven
  generalize n / d = q at hn ⊢
  generalize n % d = r at hn hr ⊢
  have e1 : (2 * M + 1) * d = 2 * (d * M) + d := by ring
  rw [e1]
  rcases Nat.lt_trichotomy q M with h1 | h1 | h1
  · have h2 : d * (q + 1) ≤ d * M := Nat.mul_le_mul_left d h1
    have e2 : d * (q + 1) = d * q + d := by ring
    rw [e2] at h2
    generalize d * M = x at h2 ⊢
    generalize d * q = y at h2 hn
    split_ifs <;> omega
  · subst h1
    generalize d * q = y at hn ⊢
    split_ifs <;> omega
  · have h2 : d * (M + 1) ≤ d * q := Nat.mul_le_mul_left d h1
    have e2 : d * (M + 1) = d * M + d := by ring
    rw [e2] at h2
    generalize d * M = x at h2 ⊢
    generalize d * q = y at h2 hn
    split_ifs <;> omega

theorem roundHalfEven_lower (n d a : Nat) (hd : 0 < d) (h : a * d ≤ n) :
    a ≤ roundHalfEven n d := by
  cases a with
  | zero => exact Nat.zero_le _
  | succ M =>
    rw [roundHalfEven_ge_iff n d M hd]
    left
    have e : (M + 1) * d = M * d + d := by ring
    have e2 : (2 * M + 1) * d = 2 * (M * d) + d := by ring
    rw [e] at h
    rw [e2]
    omega

theorem roundHalfEven_upper (n d b : Nat) (hd : 0 < d) (h : n ≤ b * d) :
    roundHalfEven n d ≤ b := by
  by_contra hc
  have h1 : b + 1 ≤ roundHalfEven n d := by omega
  rw [roundHalfEven_ge_iff n d b hd] at h1
  have e2 : (2 * b + 1) * d = 2 * (b * d) + d := by ring
  rw [e2] at h1
  omega

/-- Rounding is monotone in the value of the fraction. -/
theorem roundHalfEven_mono (n1 d1 n2 d2 : Nat) (h1 : 0 < d1) (h2 : 0 < d2)
    (h : n1 * d2 ≤ n2 * d1) : roundHalfEven n1 d1 ≤ roundHalfEven n2 d2 := by
  cases hM : roundHalfEven n1 d1 with
  | zero => exact Nat.zero_le _
  | succ M =>
    have h3 : M + 1 ≤ roundHalfEven n1 d1 := by omega
    rw [roundHalfEven_ge_iff n1 d1 M h1] at h3
    rw [roundHalfEven_ge_iff n2 d2 M h2]
    -- (2M+1) d1 ≤ 2 n1, so (2M+1) d1 d2 ≤ 2 n1 d2 ≤ 2 n2 d1
    have h4 : (2 * M + 1) * d2 * d1 ≤ 2 * n2 * d1 ∧
        ((2 * M + 1) * d2 * d1 = 2 * n2 * d1 → (2 * M + 1) * d1 = 2 * n1) := by
      have h5 : (2 * M + 1) * d1 * d2 ≤ 2 * n1 * d2 := by
        apply Nat.mul_le_mul_right
        rcases h3 with h3 | h3
        · exact le_of_lt h3
        · exact le_of_eq h3.1
      have h6 : 2 * n1 * d2 ≤ 2 * n2 * d1 := by
        have := Nat.mul_le_mul_left 2 h
        simpa [Nat.mul_assoc] using this
      have e : (2 * M + 1) * d2 * d1 = (2 * M + 1) * d1 * d2 := by ring
      refine ⟨by rw [e]; exact le_trans h5 h6, ?_⟩
      intro heq
      rw [e] at heq
      have h7 : (2 * M + 1) * d1 * d2 = 2 * n1 * d2 := le_antisymm h5 (by rw [heq]; exact h6)
      exact Nat.eq_of_mul_eq_mul_right h2 h7
    obtain ⟨h4a, h4b⟩ := h4
    have h8 : (2 * M + 1) * d2 ≤ 2 * n2 := Nat.le_of_mul_le_mul_right h4a h1
    rcases Nat.lt_or_eq_of_le h8 with h9 | h9
    · exact Or.inl h9
    · right
      refine ⟨h9, ?_⟩
      have h10 := h4b (by rw [h9])
      rcases h3 with h3 | h3
      · omega
      · exact h3.2

/-- The shift that `roundFloat64` applies to a fraction below `2^53` brings it between
`2^52` and `2^53`. -/
theorem shift_spec (n d : Nat) (hn : 0 < n) (hd : 0 < d) (h : n < d * 2 ^ 53) :
    ∃ sh : Nat, (52 : Int) - floorLog2 n d = (sh : Int) ∧
      2 ^ 52 * d ≤ n * 2 ^ sh ∧ n * 2 ^ sh < 2 ^ 53 * d := by
  obtain ⟨ha1, ha2⟩ := log2_spec n hn
  obtain ⟨hb1, hb2⟩ := log2_spec d hd
  unfold floorLog2
  generalize log2 n = a at ha1 ha2 ⊢
  generalize log2 d = b at hb1 hb2 ⊢
  have hB : 0 < 2 ^ b := Nat.pow_pos (by norm_num)
  have hab : a ≤ 53 + b := by
    by_contra hc
    have h1 : 2 ^ (b + 1 + 53) ≤ 2 ^ a := Nat.pow_le_pow_right (by norm_num) (by omega)
    have h2 : d * 2 ^ 53 < 2 ^ (b + 1) * 2 ^ 53 := Nat.mul_lt_mul_of_pos_right hb2 (by norm_num)
    rw [← pow_add] at h2
    omega
  split_ifs with hc
  · -- 2^(a-b) ≤ n/d
    have hab2 : a ≤ 52 + b := by
      by_contra hc2
      have ha : a = 53 + b := by omega
      subst ha
      have h1 : n * 2 ^ b < d * 2 ^ 53 * 2 ^ b := Nat.mul_lt_mul_of_pos_right h hB
      have e : d * 2 ^ (53 + b) = d * 2 ^ 53 * 2 ^ b := by rw [pow_add]; ring
      rw [e] at hc
      omega
    refine ⟨52 + b - a, by omega, ?_, ?_⟩
    · have hp : 2 ^ a * 2 ^ (52 + b - a) = 2 ^ 52 * 2 ^ b := by
        rw [← pow_add, ← pow_add]
        congr 1
        omega
      have h1 : d * 2 ^ a * 2 ^ (52 + b - a) ≤ n * 2 ^ b * 2 ^ (52 + b - a) :=
        Nat.mul_le_mul_right _ hc
      have e1 : d * 2 ^ a * 2 ^ (52 + b - a) = 2 ^ 52 * d * 2 ^ b := by
        rw [Nat.mul_assoc, hp]; ring
      have e2 : n * 2 ^ b * 2 ^ (52 + b - a) = n * 2 ^ (52 + b - a) * 2 ^ b := by ring
      rw [e1, e2] at h1
      exact Nat.le_of_mul_le_mul_right h1 hB
    · have hp : 2 ^ (a + 1) * 2 ^ (52 + b - a) = 2 ^ 53 * 2 ^ b := by
        rw [← pow_add, ← pow_add]
        congr 1
        omega
      have h1 : n * 2 ^ (52 + b - a) < 2 ^ (a + 1) * 2 ^ (52 + b - a) :=
        Nat.mul_lt_mul_of_pos_right ha2 (Nat.pow_pos (by norm_num))
      rw [hp] at h1
      have h2 : 2 ^ 53 * 2 ^ b ≤ 2 ^ 53 * d := Nat.mul_le_mul_left _ hb1
      omega
  · have hc2 : n * 2 ^ b < d * 2 ^ a := by omega
    refine ⟨53 + b - a, by omega, ?_, ?_⟩
    · have hp : 2 ^ a * 2 ^ (53 + b - a) = 2 ^ 52 * 2 ^ (b + 1) := by
        rw [← pow_add, ← pow_add]
        congr 1
        omega
      have h1 : 2 ^ a * 2 ^ (53 + b - a) ≤ n * 2 ^ (53 + b - a) :=
        Nat.mul_le_mul_right _ ha1
      rw [hp] at h1
      have h2 : 2 ^ 52 * d ≤ 2 ^ 52 * 2 ^ (b + 1) := Nat.mul_le_mul_left _ (le_of_lt hb2)
      omega
    · have hp : 2 ^ a * 2 ^ (53 + b - a) = 2 ^ 53 * 2 ^ b := by
        rw [← pow_add, ← pow_add]
        congr 1
        omega
      have h1 : n * 2 ^ b * 2 ^ (53 + b - a) < d * 2 ^ a * 2 ^ (53 + b - a) :=
        Nat.mul_lt_mul_of_pos_right hc2 (Nat.pow_pos (by norm_num))
      have e1 : d * 2 ^ a * 2 ^ (53 + b - a) = 2 ^ 53 * d * 2 ^ b := by
        rw [Nat.mul_assoc, hp]; ring
      have e2 : n * 2 ^ b * 2 ^ (53 + b - a) = n * 2 ^ (53 + b - a) * 2 ^ b := by ring
      rw [e1, e2] at h1
      exact Nat.lt_of_mul_lt_mul_right h1

/-- What `roundFloat64` gives for a fraction below `2^53`. -/
theorem roundFloat64_eq (n d : Nat) (hn : 0 < n) (hd : 0 < d) (h : n < d * 2 ^ 53) :
    ∃ sh : Nat, roundFloat64 n d = (roundHalfEven (n * 2 ^ sh) d, 2 ^ sh) ∧
      2 ^ 52 * d ≤ n * 2 ^ sh ∧ n * 2 ^ sh < 2 ^ 53 * d := by
  obtain ⟨sh, h1, h2, h3⟩ := shift_spec n d hn hd h
  refine ⟨sh, ?_, h2, h3⟩
  unfold roundFloat64
  rw [if_neg (by omega)]
  simp only [h1]
  rw [if_pos (by omega)]
  simp

/-- Rounding to `float64` keeps a fraction below `2^53` between the whole numbers it lies
between. -/
theorem roundFloat64_bounds (n d : Nat) (hd : 0 < d) (h : n < d * 2 ^ 53) :
    0 < (roundFloat64 n d).2 ∧
    (∀ a, a * d ≤ n → a * (roundFloat64 n d).2 ≤ (roundFloat64 n d).1) ∧
    (∀ b, n ≤ b * d → (roundFloat64 n d).1 ≤ b * (roundFloat64 n d).2) := by
  rcases Nat.eq_zero_or_pos n with hn | hn
  · subst hn
    refine ⟨by simp [roundFloat64], ?_, ?_⟩
    · intro a ha
      have : a = 0 := by
        rcases Nat.eq_zero_or_pos a with h0 | h0
        · exact h0
        · have := Nat.mul_pos h0 hd
          omega
      subst this
      simp
    · intro b _
      simp [roundFloat64]
  · obtain ⟨sh, he, _, _⟩ := roundFloat64_eq n d hn hd h
    rw [he]
    refine ⟨Nat.pow_pos (by norm_num), ?_, ?_⟩
    · intro a ha
      apply roundHalfEven_lower _ _ _ hd
      have := Nat.mul_le_mul_right (2 ^ sh) ha
      calc a * 2 ^ sh * d = a * d * 2 ^ sh := by ring
        _ ≤ n * 2 ^ sh := this
    · intro b hb
      apply roundHalfEven_upper _ _ _ hd
      have := Nat.mul_le_mul_right (2 ^ sh) hb
      calc n * 2 ^ sh ≤ b * d * 2 ^ sh := this
        _ = b * 2 ^ sh * d := by ring

/-- Rounding to `float64` is monotone on fractions below `2^53`. -/
theorem roundFloat64_mono (n1 d1 n2 d2 : Nat) (hd1 : 0 < d1) (hd2 : 0 < d2)
    (h1 : n1 < d1 * 2 ^ 53) (h2 : n2 < d2 * 2 ^ 53) (h : n1 * d2 ≤ n2 * d1) :
    (roundFloat64 n1 d1).1 * (roundFloat64 n2 d2).2
      ≤ (roundFloat64 n2 d2).1 * (roundFloat64 n1 d1).2 := by
  rcases Nat.eq_zero_or_pos n1 with hn1 | hn1
  · subst hn1
    simp [roundFloat64]
  have hn2 : 0 < n2 := by
    rcases Nat.eq_zero_or_pos n2 with h0 | h0
    · subst h0
      have := Nat.mul_pos hn1 hd2
      omega
    · exact h0
  obtain ⟨s1, e1, l1, u1⟩ := roundFloat64_eq n1 d1 hn1 hd1 h1
  obtain ⟨s2, e2, l2, u2⟩ := roundFloat64_eq n2 d2 hn2 hd2 h2
  rw [e1, e2]
  simp only
  have m1u : roundHalfEven (n1 * 2 ^ s1) d1 ≤ 2 ^ 53 :=
    roundHalfEven_upper _ _ _ hd1 (le_of_lt u1)
  have m2l : 2 ^ 52 ≤ roundHalfEven (n2 * 2 ^ s2) d2 :=
    roundHalfEven_lower _ _ _ hd2 l2
  rcases Nat.lt_trichotomy s1 s2 with hs | hs | hs
  · -- impossible: the smaller fraction would lie in the higher binade
    exfalso
    have hp : 2 * 2 ^ s1 ≤ 2 ^ s2 := by
      have : 2 ^ (s1 + 1) ≤ 2 ^ s2 := Nat.pow_le_pow_right (by norm_num) hs
      rw [pow_succ] at this
      omega
    have a1 : 2 ^ 53 * d1 * d2 ≤ 2 * (n1 * 2 ^ s1) * d2 := by
      have := Nat.mul_le_mul_right d2 (Nat.mul_le_mul_left 2 l1)
      calc 2 ^ 53 * d1 * d2 = 2 * (2 ^ 52 * d1) * d2 := by ring
        _ ≤ 2 * (n1 * 2 ^ s1) * d2 := this
    have a2 : 2 * (n1 * 2 ^ s1) * d2 ≤ 2 * (n2 * 2 ^ s1) * d1 := by
      have := Nat.mul_le_mul_left (2 * 2 ^ s1) h
      calc 2 * (n1 * 2 ^ s1) * d2 = 2 * 2 ^ s1 * (n1 * d2) := by ring
        _ ≤ 2 * 2 ^ s1 * (n2 * d1) := this
        _ = 2 * (n2 * 2 ^ s1) * d1 := by ring
    have a3 : 2 * (n2 * 2 ^ s1) * d1 ≤ n2 * 2 ^ s2 * d1 := by
      have := Nat.mul_le_mul_left (n2 * d1) hp
      calc 2 * (n2 * 2 ^ s1) * d1 = n2 * d1 * (2 * 2 ^ s1) := by ring
        _ ≤ n2 * d1 * 2 ^ s2 := this
        _ = n2 * 2 ^ s2 * d1 := by ring
    have a4 : n2 * 2 ^ s2 * d1 < 2 ^ 53 * d2 * d1 := Nat.mul_lt_mul_of_pos_right u2 hd1
    have e : 2 ^ 53 * d2 * d1 = 2 ^ 53 * d1 * d2 := by ring
    omega
  · subst hs
    apply Nat.mul_le_mul_right
    apply roundHalfEven_mono _ _ _ _ hd1 hd2
    have := Nat.mul_le_mul_right (2 ^ s1) h
    calc n1 * 2 ^ s1 * d2 = n1 * d2 * 2 ^ s1 := by ring
      _ ≤ n2 * d1 * 2 ^ s1 := this
      _ = n2 * 2 ^ s1 * d1 := by ring
  · have hp : 2 * 2 ^ s2 ≤ 2 ^ s1 := by
      have : 2 ^ (s2 + 1) ≤ 2 ^ s1 := Nat.pow_le_pow_right (by norm_num) hs
      rw [pow_succ] at this
      omega
    calc roundHalfEven (n1 * 2 ^ s1) d1 * 2 ^ s2 ≤ 2 ^ 53 * 2 ^ s2 :=
          Nat.mul_le_mul_right _ m1u
      _ = 2 ^ 52 * (2 * 2 ^ s2) := by ring
      _ ≤ 2 ^ 52 * 2 ^ s1 := Nat.mul_le_mul_left _ hp
      _ ≤ roundHalfEven (n2 * 2 ^ s2) d2 * 2 ^ s1 := Nat.mul_le_mul_right _ m2l

theorem secondsInt64_natCast (n : Nat) : secondsInt64 (n : Int) = (secondsNat n : Int) := by
  rcases Nat.eq_zero_or_pos n with h | h
  · subst h
    decide
  · unfold secondsInt64 secondsNat
    have hs : Int.sign (n : Int) = 1 := Int.sign_eq_one_of_pos (by exact_mod_cast h)
    simp only [hs, Int.natAbs_ofNat, one_mul]

/-- The fraction of a second, rounded: at most one. -/
theorem frac_bounds (ns : Nat) (h : ns < 1000000000) :
    0 < (roundFloat64 ns 1000000000).2 ∧
    (roundFloat64 ns 1000000000).1 ≤ (roundFloat64 ns 1000000000).2 := by
  obtain ⟨h1, _, h3⟩ := roundFloat64_bounds ns 1000000000 (by norm_num) (by omega)
  refine ⟨h1, ?_⟩
  have := h3 1 (by omega)
  omega

/-- The sum of the seconds and the rounded fraction, rounded, lies between the seconds and
the seconds plus one. -/
theorem sum_bounds (sec p q : Nat) (hq : 0 < q) (hp : p ≤ q) (hsec : sec + 1 < 2 ^ 53) :
    sec * q + p < q * 2 ^ 53 ∧
    0 < (roundFloat64 (sec * q + p) q).2 ∧
    sec * (roundFloat64 (sec * q + p) q).2 ≤ (roundFloat64 (sec * q + p) q).1 ∧
    (roundFloat64 (sec * q + p) q).1 ≤ (sec + 1) * (roundFloat64 (sec * q + p) q).2 := by
  have h0 : sec * q + p < q * 2 ^ 53 := by
    have h1 : (sec + 1) * q < 2 ^ 53 * q := Nat.mul_lt_mul_of_pos_right hsec hq
    have e1 : (sec + 1) * q = sec * q + q := by ring
    have e2 : q * 2 ^ 53 = 2 ^ 53 * q := by ring
    omega
  obtain ⟨h1, h2, h3⟩ := roundFloat64_bounds (sec * q + p) q hq h0
  refine ⟨h0, h1, h2 sec (by omega), h3 (sec + 1) ?_⟩
  have e1 : (sec + 1) * q = sec * q + q := by ring
  omega

theorem secondsNat_bounds (n : Nat) (h : n < 9223372036854775808) :
    n / 1000000000 ≤ secondsNat n ∧ secondsNat n ≤ n / 1000000000 + 1 := by
  obtain ⟨hq, hp⟩ := frac_bounds (n % 1000000000) (Nat.mod_lt _ (by norm_num))
  have hsec : n / 1000000000 + 1 < 2 ^ 53 := by
    norm_num
    omega
  obtain ⟨_, hQ, hl, hu⟩ := sum_bounds (n / 1000000000) _ _ hq hp hsec
  unfold secondsNat
  simp only
  constructor
  · exact (Nat.le_div_iff_mul_le hQ).2 hl
  · exact Nat.div_le_of_le_mul (le_of_le_of_eq hu (Nat.mul_comm _ _))

theorem div_le_div_of_cross (p1 q1 p2 q2 : Nat) (h1 : 0 < q1) (h2 : 0 < q2)
    (h : p1 * q2 ≤ p2 * q1) : p1 / q1 ≤ p2 / q2 := by
  rw [Nat.le_div_iff_mul_le h2]
  have a1 : p1 / q1 * q1 ≤ p1 := Nat.div_mul_le_self p1 q1
  have a2 : p1 / q1 * q2 * q1 ≤ p2 * q1 := by
    calc p1 / q1 * q2 * q1 = p1 / q1 * q1 * q2 := by ring
      _ ≤ p1 * q2 := Nat.mul_le_mul_right _ a1
      _ ≤ p2 * q1 := h
  exact Nat.le_of_mul_le_mul_right a2 h1

/-- The whole seconds of a duration never decrease when the duration grows. -/
theorem secondsNat_mono (n1 n2 : Nat) (h : n1 ≤ n2) (h2 : n2 < 9223372036854775808) :
    secondsNat n1 ≤ secondsNat n2 := by
  have hdiv : n1 / 1000000000 ≤ n2 / 1000000000 := Nat.div_le_div_right h
  rcases Nat.lt_or_eq_of_le hdiv with hlt | heq
  · have b1 := (secondsNat_bounds n1 (by omega)).2
    have b2 := (secondsNat_bounds n2 h2).1
    omega
  · have hmod : n1 % 1000000000 ≤ n2 % 1000000000 := by omega
    obtain ⟨hq1, hp1⟩ := frac_bounds (n1 % 1000000000) (Nat.mod_lt _ (by norm_num))
    obtain ⟨hq2, hp2⟩ := frac_bounds (n2 % 1000000000) (Nat.mod_lt _ (by norm_num))
    have hsec1 : n1 / 1000000000 + 1 < 2 ^ 53 := by
      norm_num
      omega
    have hsec2 : n2 / 1000000000 + 1 < 2 ^ 53 := by
      norm_num
      omega
    obtain ⟨hN1, hQ1, _, _⟩ := sum_bounds (n1 / 1000000000) _ _ hq1 hp1 hsec1
    obtain ⟨hN2, hQ2, _, _⟩ := sum_bounds (n2 / 1000000000) _ _ hq2 hp2 hsec2
    have hfrac := roundFloat64_mono (n1 % 1000000000) 1000000000 (n2 % 1000000000) 1000000000
      (by norm_num) (by norm_num)
      (by have := Nat.mod_lt n1 (show 0 < 1000000000 by norm_num); omega)
      (by have := Nat.mod_lt n2 (show 0 < 1000000000 by norm_num); omega)
      (Nat.mul_le_mul_right _ hmod)
    unfold secondsNat
    simp only
    rw [heq] at hN1 hQ1 ⊢
    generalize roundFloat64 (n1 % 1000000000) 1000000000 = f1 at *
    generalize roundFloat64 (n2 % 1000000000) 1000000000 = f2 at *
    generalize n2 / 1000000000 = sec at *
    apply div_le_div_of_cross _ _ _ _ hQ1 hQ2
    apply roundFloat64_mono _ _ _ _ hq1 hq2 hN1 hN2
    calc (sec * f1.2 + f1.1) * f2.2 = sec * f1.2 * f2.2 + f1.1 * f2.2 := by ring
      _ ≤ sec * f1.2 * f2.2 + f2.1 * f1.2 := Nat.add_le_add_left hfrac _
      _ = (sec * f2.2 + f2.1) * f1.2 := by ring

/-- One more second of duration gives at least one more whole second: the core, on the
rounded fraction `p / q` of a second. -/
theorem sum_shift (sec p q : Nat) (hq : 0 < q) (hp : p ≤ q) (hsec : sec + 2 < 2 ^ 52)
    (hup : (sec + 1) * (roundFloat64 (sec * q + p) q).2 ≤ (roundFloat64 (sec * q + p) q).1) :
    (sec + 2) * (roundFloat64 ((sec + 1) * q + p) q).2
      ≤ (roundFloat64 ((sec + 1) * q + p) q).1 := by
  have hsec1 : sec + 1 < 2 ^ 53 := by
    have : (2 : Nat) ^ 52 ≤ 2 ^ 53 := Nat.pow_le_pow_right (by norm_num) (by norm_num)
    omega
  have hsec2 : sec + 1 + 1 < 2 ^ 53 := by
    have : (2 : Nat) ^ 52 ≤ 2 ^ 53 := Nat.pow_le_pow_right (by norm_num) (by norm_num)
    omega
  obtain ⟨hN, _, _, _⟩ := sum_bounds sec p q hq hp hsec1
  obtain ⟨hN2, _, _, _⟩ := sum_bounds (sec + 1) p q hq hp hsec2
  rcases Nat.eq_zero_or_pos (sec * q + p) with h0 | h0
  · -- the sum is zero: it was not rounded up
    rw [h0] at hup
    simp [roundFloat64] at hup
  have h0' : 0 < (sec + 1) * q + p := by
    have : 0 < (sec + 1) * q := Nat.mul_pos (by omega) hq
    omega
  obtain ⟨s1, e1, l1, u1⟩ := roundFloat64_eq _ q h0 hq hN
  obtain ⟨s2, e2, l2, u2⟩ := roundFloat64_eq _ q h0' hq hN2
  rw [e1] at hup
  rw [e2]
  simp only at hup ⊢
  obtain ⟨D, hD⟩ := Nat.exists_eq_add_of_le hp
  -- the second shift is not larger than the first
  have hs : s2 ≤ s1 := by
    by_contra hc
    have hpow : 2 * 2 ^ s1 ≤ 2 ^ s2 := by
      have : 2 ^ (s1 + 1) ≤ 2 ^ s2 := Nat.pow_le_pow_right (by norm_num) (by omega)
      rw [pow_succ] at this
      omega
    have a1 : (sec * q + p) * (2 * 2 ^ s1) ≤ ((sec + 1) * q + p) * 2 ^ s2 := by
      apply Nat.mul_le_mul _ hpow
      have e : (sec + 1) * q = sec * q + q := by ring
      omega
    have a2 : (sec * q + p) * (2 * 2 ^ s1) = 2 * ((sec * q + p) * 2 ^ s1) := by ring
    have a3 : (2 : Nat) ^ 53 * q = 2 * (2 ^ 52 * q) := by ring
    omega
  -- the second shift is at least one
  have hs2 : 1 ≤ s2 := by
    by_contra hc
    have hz : s2 = 0 := by omega
    subst hz
    simp only [pow_zero, Nat.mul_one] at l2
    have a1 : (sec + 1) * q + p ≤ (sec + 2) * q := by
      have e : (sec + 2) * q = (sec + 1) * q + q := by ring
      omega
    have a2 : (sec + 2) * q < 2 ^ 52 * q := Nat.mul_lt_mul_of_pos_right hsec hq
    omega
  have hpow : 2 ^ s2 ≤ 2 ^ s1 := Nat.pow_le_pow_right (by norm_num) hs
  have hDle : D * 2 ^ s2 ≤ D * 2 ^ s1 := Nat.mul_le_mul_left _ hpow
  -- what the first rounding up says
  have K1 : 1 ≤ (sec + 1) * 2 ^ s1 := Nat.mul_pos (by omega) (Nat.pow_pos (by norm_num))
  obtain ⟨M1, hM1⟩ := Nat.exists_eq_add_of_le K1
  have hup2 : M1 + 1 ≤ roundHalfEven ((sec * q + p) * 2 ^ s1) q := by omega
  rw [roundHalfEven_ge_iff _ _ _ hq] at hup2
  have star : 2 * (D * 2 ^ s1) ≤ q := by
    have hle : (2 * M1 + 1) * q ≤ 2 * ((sec * q + p) * 2 ^ s1) := by
      rcases hup2 with h | h
      · exact le_of_lt h
      · exact le_of_eq h.1
    have e1 : (2 * M1 + 1) * q + q = 2 * ((1 + M1) * q) := by ring
    rw [← hM1] at e1
    have e2 : 2 * ((sec + 1) * 2 ^ s1 * q)
        = 2 * ((sec * q + p) * 2 ^ s1) + 2 * (D * 2 ^ s1) := by
      rw [hD]; ring
    omega
  -- the second rounding
  have K2 : 1 ≤ (sec + 2) * 2 ^ s2 := Nat.mul_pos (by omega) (Nat.pow_pos (by norm_num))
  obtain ⟨M2, hM2⟩ := Nat.exists_eq_add_of_le K2
  have goal2 : M2 + 1 ≤ roundHalfEven (((sec + 1) * q + p) * 2 ^ s2) q := by
    rw [roundHalfEven_ge_iff _ _ _ hq]
    have e1 : (2 * M2 + 1) * q + q = 2 * ((1 + M2) * q) := by ring
    rw [← hM2] at e1
    have e2 : 2 * ((sec + 2) * 2 ^ s2 * q)
        = 2 * (((sec + 1) * q + p) * 2 ^ s2) + 2 * (D * 2 ^ s2) := by
      rw [hD]; ring
    have hle : (2 * M2 + 1) * q ≤ 2 * (((sec + 1) * q + p) * 2 ^ s2) := by omega
    rcases Nat.lt_or_eq_of_le hle with h | h
    · exact Or.inl h
    · right
      refine ⟨h, ?_⟩
      have hev : (sec + 2) * 2 ^ s2 % 2 = 0 := by
        obtain ⟨t, ht⟩ := Nat.exists_eq_add_of_le hs2
        rw [ht, pow_add]
        simp [Nat.mul_mod, Nat.mul_assoc]
      omega
  omega

/-- One more second of duration gives at least one more whole second. -/
theorem secondsNat_shift (n : Nat) (h : n + 1000000000 < 9223372036854775808) :
    secondsNat n + 1 ≤ secondsNat (n + 1000000000) := by
  have hdiv : (n + 1000000000) / 1000000000 = n / 1000000000 + 1 := by omega
  have hmod : (n + 1000000000) % 1000000000 = n % 1000000000 := by omega
  have b1 := secondsNat_bounds n (by omega)
  have b2 := secondsNat_bounds (n + 1000000000) h
  rw [hdiv] at b2
  by_cases hc : secondsNat n ≤ n / 1000000000
  · omega
  · have hup : n / 1000000000 + 1 ≤ secondsNat n := by omega
    obtain ⟨hq, hp⟩ := frac_bounds (n % 1000000000) (Nat.mod_lt _ (by norm_num))
    have hsec1 : n / 1000000000 + 1 < 2 ^ 53 := by
      norm_num
      omega
    have hsec2 : n / 1000000000 + 1 + 1 < 2 ^ 53 := by
      norm_num
      omega
    have hsec : n / 1000000000 + 2 < 2 ^ 52 := by
      norm_num
      omega
    obtain ⟨_, hQ, _, _⟩ := sum_bounds (n / 1000000000) _ _ hq hp hsec1
    obtain ⟨_, hQ2, _, _⟩ := sum_bounds (n / 1000000000 + 1) _ _ hq hp hsec2
    have e1 : secondsNat n =
        (roundFloat64 (n / 1000000000 * (roundFloat64 (n % 1000000000) 1000000000).2
            + (roundFloat64 (n % 1000000000) 1000000000).1)
          (roundFloat64 (n % 1000000000) 1000000000).2).1 /
        (roundFloat64 (n / 1000000000 * (roundFloat64 (n % 1000000000) 1000000000).2
            + (roundFloat64 (n % 1000000000) 1000000000).1)
          (roundFloat64 (n % 1000000000) 1000000000).2).2 := rfl
    have e2 : secondsNat (n + 1000000000) =
        (roundFloat64 ((n / 1000000000 + 1) * (roundFloat64 (n % 1000000000) 1000000000).2
            + (roundFloat64 (n % 1000000000) 1000000000).1)
          (roundFloat64 (n % 1000000000) 1000000000).2).1 /
        (roundFloat64 ((n / 1000000000 + 1) * (roundFloat64 (n % 1000000000) 1000000000).2
            + (roundFloat64 (n % 1000000000) 1000000000).1)
          (roundFloat64 (n % 1000000000) 1000000000).2).2 := by
      unfold secondsNat
      simp only
      rw [hdiv, hmod]
    rw [e1, Nat.le_div_iff_mul_le hQ] at hup
    have key := sum_shift (n / 1000000000) _ _ hq hp hsec hup
    have h3 : n / 1000000000 + 2 ≤ secondsNat (n + 1000000000) := by
      rw [e2]
      exact (Nat.le_div_iff_mul_le hQ2).2 key
    omega

theorem secondsInt64_bounds (d : Int) (h0 : 0 ≤ d) (h2 : d < 9223372036854775808) :
    d / 1000000000 ≤ secondsInt64 d ∧ secondsInt64 d ≤ d / 1000000000 + 1 := by
  lift d to Nat using h0
  rw [secondsInt64_natCast]
  have b := secondsNat_bounds d (by exact_mod_cast h2)
  constructor
  · exact_mod_cast b.1
  · exact_mod_cast b.2

theorem secondsInt64_mono (d1 d2 : Int) (h0 : 0 ≤ d1) (h : d1 ≤ d2)
    (h2 : d2 < 9223372036854775808) : secondsInt64 d1 ≤ secondsInt64 d2 := by
  lift d1 to Nat using h0
  lift d2 to Nat using (le_trans (Int.ofNat_nonneg _) h)
  rw [secondsInt64_natCast, secondsInt64_natCast]
  exact_mod_cast secondsNat_mono d1 d2 (by exact_mod_cast h) (by exact_mod_cast h2)

theorem secondsInt64_shift (d1 d2 : Int) (h0 : 0 ≤ d1) (h : d1 + 1000000000 ≤ d2)
    (h2 : d2 < 9223372036854775808) : secondsInt64 d1 < secondsInt64 d2 := by
  lift d1 to Nat using h0
  lift d2 to Nat using (by omega)
  rw [secondsInt64_natCast, secondsInt64_natCast]
  have hn : d1 + 1000000000 ≤ d2 := by exact_mod_cast h
  have hb : d2 < 9223372036854775808 := by exact_mod_cast h2
  have a1 := secondsNat_shift d1 (by omega)
  have a2 := secondsNat_mono (d1 + 1000000000) d2 hn hb
  have : secondsNat d1 < secondsNat d2 := by omega
  exact_mod_cast this

theorem timeSub_of_le (t u : Int) (h : u ≤ t) :
    0 ≤ timeSub t u ∧ timeSub t u < 9223372036854775808 ∧
    (t - u < 9223372036854775808 → timeSub t u = t - u) := by
  unfold timeSub
  split_ifs <;> omega

theorem timeSub_mono (t1 t2 u : Int) (h : t1 ≤ t2) : timeSub t1 u ≤ timeSub t2 u := by
  unfold timeSub
  split_ifs <;> omega

/-! ## The uptime -/

theorem ServerMetrics.Update_uptime (s : ServerMetrics) (env : UpdateEnv) :
    (s.Update env).Uptime.Get = secondsInt64 (timeSub env.now s.boot) := by
  cases h : s.once <;> simp [ServerMetrics.Update, h, AtomicInt.Set, AtomicInt.Get]

/-- C12, as stated, fails for two calls less than a second apart: with `boot` at `0`, the
calls of `Update` at `1.2` and at `1.9` seconds both store the uptime `1`. -/
theorem uptime_strict_counterexample :
    (0 : Int) ≤ 1200000000 ∧ (1200000000 : Int) < 1900000000 ∧
    ((Metrics 0).Update
      { hostname := "h", now := 1200000000, numCgoCall := 0, numGoroutine := 1 }).Uptime.Get
      = 1 ∧
    (((Metrics 0).Update
      { hostname := "h", now := 1200000000, numCgoCall := 0, numGoroutine := 1 }).Update
      { hostname := "h", now := 1900000000, numCgoCall := 0, numGoroutine := 1 }).Uptime.Get
      = 1 ∧
    ¬ (((Metrics 0).Update
      { hostname := "h", now := 1200000000, numCgoCall := 0, numGoroutine := 1 }).Uptime.Get
      < (((Metrics 0).Update
        { hostname := "h", now := 1200000000, numCgoCall := 0, numGoroutine := 1 }).Update
        { hostname := "h", now := 1900000000, numCgoCall := 0,
          numGoroutine := 1 }).Uptime.Get) := by
  refine ⟨by decide, by decide, by decide, by decide, by decide⟩

/-- C12, amended: `Update` sets `Uptime`, whatever it was, to the whole seconds of the time
from `boot` to the reading of the clock, as `int64(d.Seconds())` gives them: the seconds
elapsed with the fraction dropped, or one more. For readings `boot ≤ t1 < t2` the uptime
stored at `t2` is never less than the one stored at `t1`, and it is greater when `t2` is at
least a second after `t1` and the time from `boot` to `t2` fits a `Duration`. -/
theorem uptime_never_decreases (s1 s2 : ServerMetrics) (e1 e2 : UpdateEnv)
    (hboot : s2.boot = s1.boot) (h1 : s1.boot ≤ e1.now) (h2 : e1.now < e2.now) :
    (s1.Update e1).Uptime.Get = secondsInt64 (timeSub e1.now s1.boot) ∧
    (e1.now - s1.boot < 9223372036854775808 →
      (e1.now - s1.boot) / 1000000000 ≤ (s1.Update e1).Uptime.Get ∧
      (s1.Update e1).Uptime.Get ≤ (e1.now - s1.boot) / 1000000000 + 1) ∧
    (s1.Update e1).Uptime.Get ≤ (s2.Update e2).Uptime.Get ∧
    (e1.now + 1000000000 ≤ e2.now → e2.now - s1.boot < 9223372036854775808 →
      (s1.Update e1).Uptime.Get < (s2.Update e2).Uptime.Get) := by
  rw [ServerMetrics.Update_uptime, ServerMetrics.Update_uptime, hboot]
  obtain ⟨a1, a2, a3⟩ := timeSub_of_le e1.now s1.boot h1
  obtain ⟨b1, b2, b3⟩ := timeSub_of_le e2.now s1.boot (by omega)
  refine ⟨rfl, ?_, ?_, ?_⟩
  · intro hfit
    rw [a3 hfit]
    exact secondsInt64_bounds _ (by omega) hfit
  · exact secondsInt64_mono _ _ a1 (timeSub_mono _ _ _ (le_of_lt h2)) b2
  · intro hsec hfit
    rw [b3 hfit, a3 (by omega)]
    exact secondsInt64_shift _ _ (by omega) (by omega) hfit

/-- C12, amended, on an example: with `boot` at `0`, the calls of `Update` at `1.2` and at
`2.2` seconds store the uptimes `1` and `2`. -/
theorem uptime_never_decreases_witness :
    (Metrics 0).boot = (Metrics 0).boot ∧ (Metrics 0).boot ≤ 1200000000 ∧
    (1200000000 : Int) < 2200000000 ∧
    ((Metrics 0).Update
      { hostname := "h", now := 1200000000, numCgoCall := 0, numGoroutine := 1 }).Uptime.Get
      < ((Metrics 0).Update
        { hostname := "h", now := 2200000000, numCgoCall := 0,
          numGoroutine := 1 }).Uptime.Get :=
  ⟨rfl, by decide, by decide,
    (uptime_never_decreases (Metrics 0) (Metrics 0)
      { hostname := "h", now := 1200000000, numCgoCall := 0, numGoroutine := 1 }
      { hostname := "h", now := 2200000000, numCgoCall := 0, numGoroutine := 1 }
      rfl (by decide) (by decide)).2.2.2 (by decide) (by decide)⟩

end Stat
